import Mathlib

/-!
# Verification of the bibx BibTeX scanner/parser pipeline

Shallow embedding of the `scan` package (the character-to-token Scanner)
and the `parse` package (the token-to-declaration Parser) of the
`mdm-code/bibx` repository.

The embedding follows the Go source closely:

* the `readable` character source is modelled by a `List Char` of remaining
  input; `Reader.Next` is taking the head, `Reader.Revert` (one-level
  pushback) is keeping the triggering character at the head of the remaining
  input; the `charEOF` status corresponds to the empty list, and `charErr`
  (an I/O failure of the underlying reader) has no counterpart for a pure
  in-memory input, so the `checkErr` branches appear as the `[]` cases of
  the handlers;
* every Scanner state handler (`(*Scanner).topLvlComment`, `entryType`,
  `entryFieldText`, ...) becomes a function consuming characters and
  returning at most one emitted `Item`, the updated scanner record and the
  remaining input;
* the Go `unicode` classifier functions and `strings.ToLower` /
  `strings.TrimSpace` are modelled on their ASCII fragment (the classes
  agree with Go on all ASCII characters, which is the alphabet the
  grammar's structural characters live in);
* the Parser state handlers (`(*Parser).comms`, `decl`, `entry`,
  `preamble`, `abbrev`) become functions over the finite token list
  produced by the scanner; the one-buffered channels of both machines are
  modelled by the pull drivers `scanNext` / `parseRun`.
-/

/-! ## Character classes (ASCII fragment of the Go `unicode` package) -/

/-- ASCII fragment of `unicode.IsSpace` (used by `strings.TrimSpace`). -/
def isSpaceRune (c : Char) : Bool :=
  c = ' ' || c = '\t' || c = '\n' || c = '\x0b' || c = '\x0c' || c = '\r'

/-- ASCII fragment of `unicode.IsLetter`, comparing code points as Go
compares runes (65–90 is `A`–`Z`, 97–122 is `a`–`z`). -/
def isLetterRune (c : Char) : Bool :=
  (65 ≤ c.toNat && c.toNat ≤ 90) || (97 ≤ c.toNat && c.toNat ≤ 122)

/-- ASCII fragment of `unicode.IsDigit` (48–57 is `0`–`9`). -/
def isDigitRune (c : Char) : Bool :=
  48 ≤ c.toNat && c.toNat ≤ 57

/-- ASCII fragment of `strings.ToLower` on a single rune: shift an upper
case letter down by 32 code points. -/
def toLowerRune (c : Char) : Char :=
  if 65 ≤ c.toNat ∧ c.toNat ≤ 90 then Char.ofNat (c.toNat + 32) else c

/-- `strings.ToLower` on a whole string. -/
def toLowerStr (s : List Char) : List Char :=
  s.map toLowerRune

/-- `strings.TrimSpace`: strip leading and trailing white space. -/
def trimSpace (s : List Char) : List Char :=
  ((s.dropWhile isSpaceRune).reverse.dropWhile isSpaceRune).reverse

/-! ## Validation helpers of the `scan` package -/

/-- `isContinuous`: the string is non-empty and has no white space. -/
def isContinuous (s : List Char) : Bool :=
  if s.isEmpty then false else s.all (fun r => !isSpaceRune r)

/-- The fixed punctuation set of `IsSpecial`. -/
def specialRunes : List Char := "_-/!?$&*+.:;<>[]^`|".toList

/-- `IsSpecial`: the rune is one of the allowed BibTeX NAME punctuation
characters. -/
def IsSpecial (r : Char) : Bool :=
  specialRunes.contains r

/-- `IsValidNameRune`: letters, digits or the special punctuation set. -/
def IsValidNameRune (r : Char) : Bool :=
  if !isLetterRune r && !isDigitRune r && !IsSpecial r then false else true

/-- `IsValidName`: non-empty and all runes are valid NAME runes. -/
def IsValidName (s : List Char) : Bool :=
  if s.isEmpty then false else s.all IsValidNameRune

/-- `isValidInt`: non-empty and all runes are digits. -/
def isValidInt (s : List Char) : Bool :=
  if s.isEmpty then false else s.all isDigitRune

/-- `isLetter`: non-empty and all runes are letters. -/
def isLetter (s : List Char) : Bool :=
  if s.isEmpty then false else s.all isLetterRune

/-- The index loop of `isProperQuoted`: running brace and quote counters,
where a backslash skips over the next (escaped) character. -/
def properQuotedCount : List Char → Nat → Nat → Nat × Nat
  | [], braces, quotes => (braces, quotes)
  | c :: rest, braces, quotes =>
    if c = '\\' then
      match rest with
      | [] => (braces, quotes)
      | _ :: rest2 => properQuotedCount rest2 braces quotes
    else if c = '{' then properQuotedCount rest (braces + 1) quotes
    else if c = '}' ∧ 0 < braces then properQuotedCount rest (braces - 1) quotes
    else if c = '"' then properQuotedCount rest braces (quotes + 1)
    else properQuotedCount rest braces quotes

/-- `isProperQuoted` of the `scan` package: non-empty, and the escape-aware
brace counter returns to zero with an even number of quotes. -/
def isProperQuoted (s : List Char) : Bool :=
  if s.isEmpty then false
  else
    let bq := properQuotedCount s 0 0
    if bq.1 ≠ 0 || bq.2 % 2 ≠ 0 then false else true

/-- The `delims` map of matching delimiter flavors. -/
def delims (r : Char) : Option Char :=
  if r = '{' then some '}'
  else if r = '}' then some '{'
  else if r = '(' then some ')'
  else if r = ')' then some '('
  else none

/-- `delimsMatch`: the two delimiters form a matching pair. -/
def delimsMatch (i j : Char) : Bool :=
  match delims i with
  | none => false
  | some other => if j ≠ other then false else true

/-- `isDelim`: the rune is one of the four body delimiters. -/
def isDelim (r : Char) : Bool :=
  "{}()".toList.contains r

/-! ## Scanner data model -/

/-- `ItemType`: the kind of a lexical token (`scan.ItemType`). -/
inductive ItemType where
  | itemErr
  | itemEOF
  | itemEntryDelim
  | itemLeftBrace
  | itemRightBrace
  | itemLeftDelim
  | itemRightDelim
  | itemLeftParen
  | itemRightParen
  | itemEqSgn
  | itemComma
  | itemCiteKey
  | itemEntry
  | itemComment
  | itemAbbrev
  | itemPreamble
  | itemFieldType
  | itemFieldText
  | itemTexCode
deriving DecidableEq, Repr

/-- `Item`: a single lexical token emitted by the scanner. -/
structure Item where
  t : ItemType
  val : List Char
deriving DecidableEq, Repr

/-- The internal state enumeration of the scanner. -/
inductive SState where
  | null
  | entryDelim
  | topLvlComment
  | entryComment
  | entryType
  | entryLeftBodyDelim
  | entryCiteKey
  | entryComma
  | entryFieldType
  | entryRightBodyDelim
  | entryEqSgn
  | entryFieldText
  | entryTypeOrBrace
  | eof
  | err
deriving DecidableEq, Repr

/-- `entryT`: which sub-grammar the current declaration selects. -/
inductive EntryT where
  | entry : EntryT
  | preamble : EntryT
  | abbrev : EntryT
deriving DecidableEq, Repr

/-- The mutable fields of `scan.Scanner` (the token channel is modelled by
the emitted-item slot of `SStep`; the reader by the remaining input). -/
structure Scanner where
  state : SState
  bracers : Int
  entryT : EntryT
  delim : Char
deriving DecidableEq, Repr

/-- `NewScanner`: a fresh scanner, with Go zero values for the fields the
constructor does not set. -/
def newScanner : Scanner :=
  { state := .null, bracers := 0, entryT := .entry, delim := Char.ofNat 0 }

/-- The result of running one scanner state handler: at most one emitted
item, the updated scanner, and the remaining input. -/
structure SStep where
  emitted : Option Item
  sc : Scanner
  rest : List Char
deriving DecidableEq, Repr

/-! ## Scanner state handlers -/

/-- `(*Scanner).topLvlComment`: buffer runes until `@`; emit a trimmed
Comment if non-empty and push the `@` back. -/
def topLvlCommentH (sc : Scanner) (buf : List Char) : List Char → SStep
  | [] => ⟨none, { sc with state := .eof }, []⟩
  | c :: rest =>
    if c = '@' then
      ⟨if (trimSpace buf).isEmpty then none
        else some ⟨.itemComment, trimSpace buf⟩,
       { sc with state := .entryDelim }, c :: rest⟩
    else topLvlCommentH sc (buf ++ [c]) rest

/-- `(*Scanner).entryDelim`: scan for `@` and emit it. -/
def entryDelimH (sc : Scanner) : List Char → SStep
  | [] => ⟨none, { sc with state := .eof }, []⟩
  | c :: rest =>
    if c = '@' then
      ⟨some ⟨.itemEntryDelim, [c]⟩, { sc with state := .entryType }, rest⟩
    else entryDelimH sc rest

/-- `(*Scanner).entryType`: buffer until the body opener; select the
sub-grammar on a lower-cased copy; validate the raw name; push the opener
back on success (the `defer Revert` only runs on the emitting path). -/
def entryTypeH (sc : Scanner) (buf : List Char) : List Char → SStep
  | [] => ⟨none, { sc with state := .eof }, []⟩
  | c :: rest =>
    if c = '{' ∨ c = '(' then
      let b := trimSpace buf
      let lower := toLowerStr b
      let et : EntryT :=
        if lower = "preamble".toList then .preamble
        else if lower = "string".toList then .abbrev
        else .entry
      let t : ItemType :=
        if lower = "preamble".toList then .itemPreamble
        else if lower = "string".toList then .itemAbbrev
        else .itemEntry
      if !IsValidName b then ⟨none, { sc with entryT := et, state := .err }, rest⟩
      else ⟨some ⟨t, b⟩, { sc with entryT := et, state := .entryLeftBodyDelim }, c :: rest⟩
    else entryTypeH sc (buf ++ [c]) rest

/-- `(*Scanner).leftBodyDelim`: consume the opener, record its flavor,
increment the nesting depth and dispatch by declaration kind. -/
def leftBodyDelimH (sc : Scanner) : List Char → SStep
  | [] => ⟨none, { sc with state := .eof }, []⟩
  | c :: rest =>
    if c = '{' ∨ c = '(' then
      let st : SState :=
        match sc.entryT with
        | .entry => .entryCiteKey
        | .preamble => .entryFieldText
        | .abbrev => .entryFieldType
      ⟨some ⟨.itemLeftDelim, [c]⟩,
       { sc with delim := c, bracers := sc.bracers + 1, state := st }, rest⟩
    else leftBodyDelimH sc rest

/-- `(*Scanner).rightBodyDelim`: consume the closer, reject a flavor
mismatch against the recorded opener, decrement depth. -/
def rightBodyDelimH (sc : Scanner) : List Char → SStep
  | [] => ⟨none, { sc with state := .eof }, []⟩
  | c :: rest =>
    if c = '}' ∨ c = ')' then
      if !delimsMatch sc.delim c then ⟨none, { sc with state := .err }, rest⟩
      else ⟨some ⟨.itemRightDelim, [c]⟩,
            { sc with bracers := sc.bracers - 1, state := .null }, rest⟩
    else rightBodyDelimH sc rest

/-- `(*Scanner).citeKey`: buffer until `,`, trim, validate as NAME, push
the comma back on success. -/
def citeKeyH (sc : Scanner) (buf : List Char) : List Char → SStep
  | [] => ⟨none, { sc with state := .eof }, []⟩
  | c :: rest =>
    if c = ',' then
      let b := trimSpace buf
      if !IsValidName b then ⟨none, { sc with state := .err }, rest⟩
      else ⟨some ⟨.itemCiteKey, b⟩, { sc with state := .entryComma }, c :: rest⟩
    else citeKeyH sc (buf ++ [c]) rest

/-- `(*Scanner).entryComma`: scan for `,` and emit it. -/
def entryCommaH (sc : Scanner) : List Char → SStep
  | [] => ⟨none, { sc with state := .eof }, []⟩
  | c :: rest =>
    if c = ',' then
      ⟨some ⟨.itemComma, [c]⟩, { sc with state := .entryTypeOrBrace }, rest⟩
    else entryCommaH sc rest

/-- The second loop of `(*Scanner).entryComment` (label `cont`): peek the
next meaningful rune to re-dispatch after an inline comment; the comment
item emitted by the first loop is carried through. -/
def entryCommentContH (sc : Scanner) (emit : Option Item) : List Char → SStep
  | [] => ⟨emit, { sc with state := .eof }, []⟩
  | c :: rest =>
    if c = '%' then ⟨emit, { sc with state := .entryComment }, rest⟩
    else if isDelim c then ⟨emit, { sc with state := .entryRightBodyDelim }, c :: rest⟩
    else if IsValidNameRune c then ⟨emit, { sc with state := .entryFieldType }, c :: rest⟩
    else entryCommentContH sc emit rest

/-- The first loop of `(*Scanner).entryComment`: consume a `%` comment up
to the newline, emit it trimmed if non-empty, then re-dispatch. -/
def entryCommentH (sc : Scanner) (buf : List Char) : List Char → SStep
  | [] => ⟨none, { sc with state := .eof }, []⟩
  | c :: rest =>
    if c = '\n' then
      entryCommentContH sc
        (if (trimSpace buf).isEmpty then none else some ⟨.itemComment, trimSpace buf⟩)
        rest
    else entryCommentH sc (buf ++ [c]) rest

/-- `(*Scanner).entryTypeOrBrace`: after a comma, decide between closing
the body, an inline comment, or the next field name. -/
def entryTypeOrBraceH (sc : Scanner) : List Char → SStep
  | [] => ⟨none, { sc with state := .eof }, []⟩
  | c :: rest =>
    if c = '}' ∨ c = ')' then ⟨none, { sc with state := .entryRightBodyDelim }, c :: rest⟩
    else if c = '%' then ⟨none, { sc with state := .entryComment }, rest⟩
    else if IsValidNameRune c then ⟨none, { sc with state := .entryFieldType }, c :: rest⟩
    else entryTypeOrBraceH sc rest

/-- `(*Scanner).entryFieldType`: buffer a NAME until `=`, validate, push
the `=` back on success. -/
def entryFieldTypeH (sc : Scanner) (buf : List Char) : List Char → SStep
  | [] => ⟨none, { sc with state := .eof }, []⟩
  | c :: rest =>
    if c = '=' then
      let b := trimSpace buf
      if !IsValidName b then ⟨none, { sc with state := .err }, rest⟩
      else ⟨some ⟨.itemFieldType, b⟩, { sc with state := .entryEqSgn }, c :: rest⟩
    else entryFieldTypeH sc (buf ++ [c]) rest

/-- `(*Scanner).entryEqSgn`: scan for `=` and emit it. -/
def entryEqSgnH (sc : Scanner) : List Char → SStep
  | [] => ⟨none, { sc with state := .eof }, []⟩
  | c :: rest =>
    if c = '=' then
      ⟨some ⟨.itemEqSgn, [c]⟩, { sc with state := .entryFieldText }, rest⟩
    else entryEqSgnH sc rest

/-- `(*Scanner).entryFieldText`: the field-value state, with the local
quote-parity counter (`quotes`), the previous rune (`prev`, initially the
zero rune) and the scanner-wide brace depth (`sc.bracers`).  The branches
mirror the Go `switch` in order. -/
def entryFieldTextH (sc : Scanner) (buf : List Char) (quotes : Nat) (prev : Char) :
    List Char → SStep
  | [] => ⟨none, { sc with state := .eof }, []⟩
  | c :: rest =>
    if c = '{' then
      entryFieldTextH { sc with bracers := sc.bracers + 1 } (buf ++ [c]) quotes c rest
    else if c = '"' then
      entryFieldTextH sc (buf ++ [c]) (if prev ≠ '\\' then quotes + 1 else quotes) c rest
    else if (c = '}' ∨ c = ')') ∧ sc.bracers = 1 then
      let b := trimSpace buf
      if !isValidInt b && !isProperQuoted b then ⟨none, { sc with state := .err }, rest⟩
      else ⟨some ⟨.itemFieldText, b⟩, { sc with state := .entryRightBodyDelim }, c :: rest⟩
    else if c = '%' ∧ sc.bracers = 1 then
      let b := trimSpace buf
      if !isValidInt b && !isProperQuoted b then ⟨none, { sc with state := .err }, rest⟩
      else ⟨some ⟨.itemFieldText, b⟩, { sc with state := .entryComment }, rest⟩
    else if c = '}' ∧ 0 < sc.bracers then
      entryFieldTextH { sc with bracers := sc.bracers - 1 } (buf ++ [c]) quotes c rest
    else if c = ',' ∧ quotes % 2 = 0 ∧ sc.bracers = 1 then
      let b := trimSpace buf
      if !isValidInt b && !isProperQuoted b then ⟨none, { sc with state := .err }, rest⟩
      else ⟨some ⟨.itemFieldText, b⟩, { sc with state := .entryComma }, c :: rest⟩
    else entryFieldTextH sc (buf ++ [c]) quotes c rest

/-- One step of the scanner: dispatch the current state's handler
(`s.states[s.state](s)` in `(*Scanner).Next`); the `eof` and `err` handlers
emit their terminal item and stay put; `null` moves to the top-level
comment state without reading. -/
def scanStep (sc : Scanner) (inp : List Char) : SStep :=
  match sc.state with
  | .null => ⟨none, { sc with state := .topLvlComment }, inp⟩
  | .topLvlComment => topLvlCommentH sc [] inp
  | .entryComment => entryCommentH sc [] inp
  | .entryDelim => entryDelimH sc inp
  | .entryType => entryTypeH sc [] inp
  | .entryLeftBodyDelim => leftBodyDelimH sc inp
  | .entryRightBodyDelim => rightBodyDelimH sc inp
  | .entryCiteKey => citeKeyH sc [] inp
  | .entryComma => entryCommaH sc inp
  | .entryFieldType => entryFieldTypeH sc [] inp
  | .entryEqSgn => entryEqSgnH sc inp
  | .entryFieldText => entryFieldTextH sc [] 0 (Char.ofNat 0) inp
  | .entryTypeOrBrace => entryTypeOrBraceH sc inp
  | .eof => ⟨some ⟨.itemEOF, []⟩, { sc with state := .eof }, inp⟩
  | .err => ⟨some ⟨.itemErr, []⟩, { sc with state := .err }, inp⟩

/-- `(*Scanner).Next`: run state handlers until one token has been
emitted and return it (the channel holds at most one item, drained once
per call).  `none` means the step budget ran out. -/
def scanNext : Nat → Scanner → List Char → Option (Item × Scanner × List Char)
  | 0, _, _ => none
  | fuel + 1, sc, inp =>
    match scanStep sc inp with
    | ⟨some i, sc2, inp2⟩ => some (i, sc2, inp2)
    | ⟨none, sc2, inp2⟩ => scanNext fuel sc2 inp2

/-- `n` successive calls of `(*Scanner).Next`, collecting the tokens. -/
def scanNextN (n : Nat) (fuel : Nat) (sc : Scanner) (inp : List Char) : List Item :=
  match n with
  | 0 => []
  | m + 1 =>
    match scanNext fuel sc inp with
    | none => []
    | some (i, sc2, inp2) => i :: scanNextN m fuel sc2 inp2

/-- The full token sequence a consumer pulls out of the scanner, up to and
including the first terminal (EOF or Error) token. -/
def scanTokens : Nat → Scanner → List Char → List Item
  | 0, _, _ => []
  | fuel + 1, sc, inp =>
    match scanNext (fuel + 1) sc inp with
    | none => []
    | some (i, sc2, inp2) =>
      if i.t = .itemEOF ∨ i.t = .itemErr then [i]
      else i :: scanTokens fuel sc2 inp2

/-! ## Parser data model (`parse` package) -/

/-- `FieldStmt`: one `key = value` statement. -/
structure FieldStmt where
  key : List Char
  value : List Char
deriving DecidableEq, Repr

/-- `EntryDecl`: a generic entry declaration (the `Comments` pointer is
modelled by the list of comment texts of its `CommentGroupExpr`). -/
structure EntryDecl where
  name : List Char
  citeKey : List Char
  comments : List (List Char)
  fields : List FieldStmt
deriving DecidableEq, Repr

/-- `AbbrevDecl`: a `@string` abbreviation declaration; the `Field`
pointer is `none` while unset. -/
structure AbbrevDecl where
  comments : List (List Char)
  field : Option FieldStmt
deriving DecidableEq, Repr

/-- `PreambleDecl`: a `@preamble` declaration. -/
structure PreambleDecl where
  comments : List (List Char)
  value : List Char
deriving DecidableEq, Repr

/-- The declaration nodes the parser can emit (the `BadDecl`, `BadStmt`
and `BadExpr` sentinels are never constructed by the parser's state
handlers and are omitted). -/
inductive Node where
  | entry : EntryDecl → Node
  | abbrev : AbbrevDecl → Node
  | preamble : PreambleDecl → Node
deriving DecidableEq, Repr

/-- `(*FieldStmt).ok`: both key and value are set. -/
def FieldStmt.isOk (f : FieldStmt) : Bool :=
  if f.key = [] ∨ f.value = [] then false else true

/-- The state enumeration of the parser. -/
inductive PState where
  | null : PState
  | comms : PState
  | decl : PState
  | entry : PState
  | preamble : PState
  | abbrev : PState
  | err : PState
  | eof : PState
deriving DecidableEq, Repr

/-- The result of one parser state handler: at most one emitted node, the
pending comment accumulator, the current declaration slot (`currDecl`),
the next state and the remaining tokens. -/
structure PStep where
  emitted : Option Node
  comments : List (List Char)
  cur : Option Node
  state : PState
  rest : List Item
deriving DecidableEq, Repr

/-- `checkErr` of the `parse` package, mapping a token kind to the state
it forces (`null` means no terminal token was seen). -/
def checkErrT (t : ItemType) : PState :=
  if t = .itemErr then .err else if t = .itemEOF then .eof else .null

/-- `(*Parser).comms`: buffer Comment tokens into the pending group until
an EntryDelim; any other kind resets the group and errors. -/
def commsH (cur : Option Node) (g : List (List Char)) : List Item → PStep
  | [] => ⟨none, g, cur, .eof, []⟩
  | i :: rest =>
    if i.t = .itemErr then ⟨none, g, cur, .err, rest⟩
    else if i.t = .itemEOF then ⟨none, g, cur, .eof, rest⟩
    else if i.t = .itemComment then commsH cur (g ++ [i.val]) rest
    else if i.t = .itemEntryDelim then ⟨none, g, cur, .decl, rest⟩
    else ⟨none, [], cur, .err, rest⟩

/-- `(*Parser).decl`: consume the keyword/type token and seed the matching
empty declaration (the entry-type name is lower-cased here). -/
def declH (cur : Option Node) (g : List (List Char)) : List Item → PStep
  | [] => ⟨none, g, cur, .eof, []⟩
  | i :: rest =>
    if i.t = .itemErr then ⟨none, g, cur, .err, rest⟩
    else if i.t = .itemEOF then ⟨none, g, cur, .eof, rest⟩
    else if i.t = .itemEntry then
      ⟨none, g, some (.entry ⟨toLowerStr i.val, [], [], []⟩), .entry, rest⟩
    else if i.t = .itemAbbrev then
      ⟨none, g, some (.abbrev ⟨[], none⟩), .abbrev, rest⟩
    else if i.t = .itemPreamble then
      ⟨none, g, some (.preamble ⟨[], []⟩), .preamble, rest⟩
    else ⟨none, g, cur, .err, rest⟩

/-- The main loop of `(*Parser).entry`: buffer comments, pair FieldType
with FieldText into FieldStmts, silently consume Comma/EqSgn, and emit on
RightDelim (attaching and resetting the comment group). -/
def entryLoop (d : EntryDecl) (stmt : FieldStmt) (g : List (List Char)) :
    List Item → PStep
  | [] => ⟨none, g, some (.entry d), .eof, []⟩
  | i :: rest =>
    if i.t = .itemErr then ⟨none, g, some (.entry d), .err, rest⟩
    else if i.t = .itemEOF then ⟨none, g, some (.entry d), .eof, rest⟩
    else if i.t = .itemComment then entryLoop d stmt (g ++ [i.val]) rest
    else if i.t = .itemFieldType then entryLoop d { stmt with key := i.val } g rest
    else if i.t = .itemFieldText then
      if !(FieldStmt.isOk { stmt with value := i.val }) then
        ⟨none, g, some (.entry d), .err, rest⟩
      else
        entryLoop { d with fields := d.fields ++ [{ stmt with value := i.val }] }
          ⟨[], []⟩ g rest
    else if i.t = .itemRightDelim then
      ⟨some (.entry { d with comments := g }), [],
       some (.entry { d with comments := g }), .null, rest⟩
    else if i.t = .itemComma ∨ i.t = .itemEqSgn then entryLoop d stmt g rest
    else ⟨none, g, some (.entry d), .err, rest⟩

/-- `(*Parser).entry`: check the `currDecl` type assertion, consume the
body delimiter without checking its kind, require a CiteKey, then loop. -/
def entryH (cur : Option Node) (g : List (List Char)) (toks : List Item) : PStep :=
  match cur with
  | some (.entry d) =>
    match toks with
    | [] => ⟨none, g, cur, .eof, []⟩
    | i :: rest =>
      if i.t = .itemErr then ⟨none, g, cur, .err, rest⟩
      else if i.t = .itemEOF then ⟨none, g, cur, .eof, rest⟩
      else
        match rest with
        | [] => ⟨none, g, cur, .eof, []⟩
        | j :: rest2 =>
          if j.t = .itemErr then ⟨none, g, cur, .err, rest2⟩
          else if j.t = .itemEOF then ⟨none, g, cur, .eof, rest2⟩
          else if j.t ≠ .itemCiteKey then ⟨none, g, cur, .err, rest2⟩
          else entryLoop { d with citeKey := j.val } ⟨[], []⟩ g rest2
  | _ => ⟨none, g, cur, .err, toks⟩

/-- The main loop of `(*Parser).preamble`: buffer comments, keep the last
FieldText as the bare value, emit on RightDelim; anything else errors. -/
def preambleLoop (d : PreambleDecl) (g : List (List Char)) : List Item → PStep
  | [] => ⟨none, g, some (.preamble d), .eof, []⟩
  | i :: rest =>
    if i.t = .itemErr then ⟨none, g, some (.preamble d), .err, rest⟩
    else if i.t = .itemEOF then ⟨none, g, some (.preamble d), .eof, rest⟩
    else if i.t = .itemComment then preambleLoop d (g ++ [i.val]) rest
    else if i.t = .itemFieldText then preambleLoop { d with value := i.val } g rest
    else if i.t = .itemRightDelim then
      ⟨some (.preamble { d with comments := g }), [],
       some (.preamble { d with comments := g }), .null, rest⟩
    else ⟨none, g, some (.preamble d), .err, rest⟩

/-- `(*Parser).preamble`: check `currDecl`, consume the body delimiter
without checking its kind, then loop. -/
def preambleH (cur : Option Node) (g : List (List Char)) (toks : List Item) : PStep :=
  match cur with
  | some (.preamble d) =>
    match toks with
    | [] => ⟨none, g, cur, .eof, []⟩
    | i :: rest =>
      if i.t = .itemErr then ⟨none, g, cur, .err, rest⟩
      else if i.t = .itemEOF then ⟨none, g, cur, .eof, rest⟩
      else preambleLoop d g rest
  | _ => ⟨none, g, cur, .err, toks⟩

/-- The main loop of `(*Parser).abbrev`: the single `stmt` variable is
aliased by the declaration's `Field` pointer once set, so the emitted
field is the final state of `stmt` provided it was ever assigned
(`fieldSet`). -/
def abbrevLoop (stmt : FieldStmt) (fieldSet : Bool) (g : List (List Char)) :
    List Item → PStep
  | [] => ⟨none, g, some (.abbrev ⟨[], if fieldSet then some stmt else none⟩), .eof, []⟩
  | i :: rest =>
    if i.t = .itemErr then
      ⟨none, g, some (.abbrev ⟨[], if fieldSet then some stmt else none⟩), .err, rest⟩
    else if i.t = .itemEOF then
      ⟨none, g, some (.abbrev ⟨[], if fieldSet then some stmt else none⟩), .eof, rest⟩
    else if i.t = .itemComment then abbrevLoop stmt fieldSet (g ++ [i.val]) rest
    else if i.t = .itemFieldType then abbrevLoop { stmt with key := i.val } fieldSet g rest
    else if i.t = .itemFieldText then
      if !(FieldStmt.isOk { stmt with value := i.val }) then
        ⟨none, g, some (.abbrev ⟨[], if fieldSet then some stmt else none⟩), .err, rest⟩
      else abbrevLoop { stmt with value := i.val } true g rest
    else if i.t = .itemRightDelim then
      ⟨some (.abbrev ⟨g, if fieldSet then some stmt else none⟩), [],
       some (.abbrev ⟨g, if fieldSet then some stmt else none⟩), .null, rest⟩
    else if i.t = .itemEqSgn then abbrevLoop stmt fieldSet g rest
    else ⟨none, g, some (.abbrev ⟨[], if fieldSet then some stmt else none⟩), .err, rest⟩

/-- `(*Parser).abbrev`: check `currDecl`, consume the body delimiter
without checking its kind, then loop. -/
def abbrevH (cur : Option Node) (g : List (List Char)) (toks : List Item) : PStep :=
  match cur with
  | some (.abbrev _) =>
    match toks with
    | [] => ⟨none, g, cur, .eof, []⟩
    | i :: rest =>
      if i.t = .itemErr then ⟨none, g, cur, .err, rest⟩
      else if i.t = .itemEOF then ⟨none, g, cur, .eof, rest⟩
      else abbrevLoop ⟨[], []⟩ false g rest
  | _ => ⟨none, g, cur, .err, toks⟩

/-- The mutable fields of `parse.Parser` between two pulls. -/
structure ParserS where
  state : PState
  comments : List (List Char)
  cur : Option Node
deriving DecidableEq, Repr

/-- `NewParser`: fresh state, empty pending comment group, no current
declaration. -/
def newParser : ParserS :=
  { state := .null, comments := [], cur := none }

/-- One step of the parser: dispatch the current state's handler
(`p.states[p.state](p)` in `(*Parser).Next`); `err` and `eof` close the
output channel so the run ends. -/
def parseStep (ps : ParserS) (toks : List Item) : PStep :=
  match ps.state with
  | .null => ⟨none, ps.comments, ps.cur, .comms, toks⟩
  | .comms => commsH ps.cur ps.comments toks
  | .decl => declH ps.cur ps.comments toks
  | .entry => entryH ps.cur ps.comments toks
  | .preamble => preambleH ps.cur ps.comments toks
  | .abbrev => abbrevH ps.cur ps.comments toks
  | .err => ⟨none, ps.comments, ps.cur, .err, toks⟩
  | .eof => ⟨none, ps.comments, ps.cur, .eof, toks⟩

/-- The full declaration sequence pulled out of the parser: step until the
terminal `err`/`eof` state, collecting every emitted node. -/
def parseRun : Nat → ParserS → List Item → List Node
  | 0, _, _ => []
  | fuel + 1, ps, toks =>
    if ps.state = .err ∨ ps.state = .eof then []
    else
      let st := parseStep ps toks
      st.emitted.toList ++ parseRun fuel ⟨st.state, st.comments, st.cur⟩ st.rest

/-- The whole pipeline: a fresh Scanner over the input feeding a fresh
Parser, as in the example CLI (`parse.NewParser(scan.NewScanner(...))`). -/
def pipeline (fuel : Nat) (input : List Char) : List Node :=
  parseRun fuel newParser (scanTokens fuel newScanner input)

/-! ## Basic facts about the validation helpers -/

/-- A valid NAME is non-empty. -/
theorem IsValidName_ne_nil {s : List Char} (h : IsValidName s = true) : s ≠ [] := by
  intro he
  subst he
  simp [IsValidName] at h

/-- `Char.ofNat` at a valid code point evaluates back to it. -/
theorem toNat_ofNat_valid (n : Nat) (h : n.isValidChar) : (Char.ofNat n).toNat = n := by
  simp [Char.ofNat, h, Char.ofNatAux, Char.toNat, UInt32.toNat, UInt32.ofNat',
    BitVec.toNat_ofNat]

/-- Lower-casing keeps a rune inside the NAME alphabet. -/
theorem IsValidNameRune_toLowerRune {c : Char} (h : IsValidNameRune c = true) :
    IsValidNameRune (toLowerRune c) = true := by
  unfold toLowerRune
  split
  case isTrue hc =>
    have hv : (c.toNat + 32).isValidChar := Or.inl (by omega)
    have htn : (Char.ofNat (c.toNat + 32)).toNat = c.toNat + 32 := toNat_ofNat_valid _ hv
    have hl : isLetterRune (Char.ofNat (c.toNat + 32)) = true := by
      simp [isLetterRune, htn]
      omega
    simp [IsValidNameRune, hl]
  case isFalse hc => exact h

/-- Lower-casing keeps a whole string inside the NAME alphabet. -/
theorem IsValidName_toLowerStr {s : List Char} (h : IsValidName s = true) :
    IsValidName (toLowerStr s) = true := by
  have hne : s ≠ [] := IsValidName_ne_nil h
  have hE : s.isEmpty = false := by simpa [List.isEmpty_iff] using hne
  have hE2 : (toLowerStr s).isEmpty = false := by
    simpa [toLowerStr, List.isEmpty_iff] using hne
  have h2 : s.all IsValidNameRune = true := by
    rw [IsValidName, hE] at h
    simpa using h
  have h3 : (toLowerStr s).all IsValidNameRune = true := by
    rw [toLowerStr, List.all_map, List.all_eq_true]
    rw [List.all_eq_true] at h2
    intro x hx
    simp only [Function.comp_apply]
    exact IsValidNameRune_toLowerRune (h2 x hx)
  rw [IsValidName, hE2]
  simpa using h3

/-- The comment texts of a token list, in order. -/
def commentVals (l : List Item) : List (List Char) :=
  (l.filter (fun i => i.t == .itemComment)).map Item.val

/-- `entryLoop` only ever emits an entry declaration, and the emitted
declaration keeps the type name and cite key it was seeded with. -/
theorem entryLoop_emits_entry :
    ∀ (toks : List Item) (d : EntryDecl) (stmt : FieldStmt) (g : List (List Char))
      (n : Node), (entryLoop d stmt g toks).emitted = some n →
      ∃ d', n = .entry d' ∧ d'.name = d.name ∧ d'.citeKey = d.citeKey := by
  intro toks
  induction toks with
  | nil => intro d stmt g n h; simp [entryLoop] at h
  | cons i rest ih =>
    intro d stmt g n h
    simp only [entryLoop] at h
    by_cases c1 : i.t = .itemErr
    · rw [if_pos c1] at h; simp at h
    rw [if_neg c1] at h
    by_cases c2 : i.t = .itemEOF
    · rw [if_pos c2] at h; simp at h
    rw [if_neg c2] at h
    by_cases c3 : i.t = .itemComment
    · rw [if_pos c3] at h; exact ih _ _ _ _ h
    rw [if_neg c3] at h
    by_cases c4 : i.t = .itemFieldType
    · rw [if_pos c4] at h; exact ih _ _ _ _ h
    rw [if_neg c4] at h
    by_cases c5 : i.t = .itemFieldText
    · rw [if_pos c5] at h
      by_cases c5b : (!FieldStmt.isOk { stmt with value := i.val }) = true
      · rw [if_pos c5b] at h; simp at h
      · rw [if_neg c5b] at h
        obtain ⟨d', hd1, hd2, hd3⟩ := ih _ _ _ _ h
        exact ⟨d', hd1, hd2, hd3⟩
    rw [if_neg c5] at h
    by_cases c6 : i.t = .itemRightDelim
    · rw [if_pos c6] at h
      simp only [PStep.emitted, Option.some.injEq] at h
      exact ⟨_, h.symm, rfl, rfl⟩
    rw [if_neg c6] at h
    by_cases c7 : i.t = .itemComma ∨ i.t = .itemEqSgn
    · rw [if_pos c7] at h; exact ih _ _ _ _ h
    · rw [if_neg c7] at h; simp at h

/-! ## Claim C1: entry-type name case handling -/

/-- C1 counterexample: for the well-formed declaration `@Article{k, }` the
scanner emits the entry-type name `Article` exactly as scanned, but the
EntryDecl emitted by the parser carries the lower-cased `article`, so the
parsed type name is not character-for-character the scanned one. -/
theorem C1_counterexample :
    Item.mk .itemEntry ("Article".toList) ∈
      scanTokens 100 newScanner ("@Article{k, }".toList) ∧
    pipeline 100 ("@Article{k, }".toList) =
      [Node.entry ⟨"article".toList, "k".toList, [], []⟩] ∧
    ("article".toList : List Char) ≠ "Article".toList := by decide

/-- C1 (amended): the scanner's entry-type state emits the scanned name
verbatim (case preserved), selecting the Preamble/Abbrev keyword token by
a case-insensitive comparison of a lower-cased copy with
`preamble`/`string`; the parser's dispatch state then seeds the EntryDecl
with the lower-cased copy of the scanned name, and the entry state
preserves that name into the emitted declaration. -/
theorem C1_amended_typeName :
    (∀ (sc : Scanner) (buf : List Char) (c : Char) (rest : List Char),
      (c = '{' ∨ c = '(') → IsValidName (trimSpace buf) = true →
      (entryTypeH sc buf (c :: rest)).emitted =
        some ⟨(if toLowerStr (trimSpace buf) = "preamble".toList then .itemPreamble
          else if toLowerStr (trimSpace buf) = "string".toList then .itemAbbrev
          else .itemEntry), trimSpace buf⟩) ∧
    (∀ (cur : Option Node) (g : List (List Char)) (i : Item) (rest : List Item),
      i.t = .itemEntry →
      declH cur g (i :: rest) =
        ⟨none, g, some (.entry ⟨toLowerStr i.val, [], [], []⟩), .entry, rest⟩) ∧
    (∀ (toks : List Item) (d : EntryDecl) (stmt : FieldStmt) (g : List (List Char))
      (d' : EntryDecl), (entryLoop d stmt g toks).emitted = some (.entry d') →
      d'.name = d.name) := by
  refine ⟨?_, ?_, ?_⟩
  · intro sc buf c rest hc hv
    rcases hc with rfl | rfl <;> simp [entryTypeH, hv]
  · intro cur g i rest hi
    simp [declH, hi]
  · intro toks d stmt g d' h
    obtain ⟨d2, h1, h2, _⟩ := entryLoop_emits_entry toks d stmt g _ h
    injection h1 with h1
    subst h1
    exact h2

/-- Witness for C1 (amended) at the concrete scanned name `Article`. -/
theorem C1_amended_typeName_witness :
    (entryTypeH newScanner ("Article".toList) ['{']).emitted =
      some ⟨.itemEntry, "Article".toList⟩ ∧
    declH none [] [⟨.itemEntry, "Article".toList⟩] =
      ⟨none, [], some (.entry ⟨"article".toList, [], [], []⟩), .entry, []⟩ ∧
    (entryLoop ⟨"article".toList, "k".toList, [], []⟩ ⟨[], []⟩ []
        [⟨.itemRightDelim, "\x7d".toList⟩]).emitted =
      some (.entry ⟨"article".toList, "k".toList, [], []⟩) := by
  refine ⟨?_, ?_, by decide⟩
  · have h := C1_amended_typeName.1 newScanner ("Article".toList) '{' []
      (Or.inl rfl) (by decide)
    exact h.trans (by decide)
  · have h := C1_amended_typeName.2.1 none [] ⟨.itemEntry, "Article".toList⟩ [] rfl
    exact h.trans (by decide)

/-! ## Claim C2: field-text validation on termination -/

/-- C2 counterexample: the undelimited bare word `abc` as a field value is
accepted, not rejected: for `@book{k, a = abc}` the scanner emits the
FieldText token `abc` and never an Error token, although `abc` is neither
a digit run nor delimited by an outer quote or brace pair (the scan
package's `isProperQuoted` checks only balance, not outer delimiters). -/
theorem C2_counterexample :
    Item.mk .itemFieldText ("abc".toList) ∈
      scanTokens 100 newScanner ("@book{k, a = abc}".toList) ∧
    Item.mk .itemErr [] ∉ scanTokens 100 newScanner ("@book{k, a = abc}".toList) ∧
    isValidInt ("abc".toList) = false ∧
    ("abc".toList).head? ≠ some '"' ∧ ("abc".toList).head? ≠ some '{' := by decide

/-- C2 (amended): at each of the three terminators of the field-text state
(the body closer at depth 1, a comma at depth 1 with even quote parity, or
a `%` at depth 1) the trimmed buffer is emitted as a FieldText token if it
is a bare digit run or balanced in the escape-aware sense of
`isProperQuoted` (interior braces closed, evenly many quotes — outer
delimiters are not required); otherwise the scanner moves to the Error
state and emits nothing. -/
theorem C2_amended_fieldText :
    ∀ (sc : Scanner) (buf : List Char) (q : Nat) (p c : Char) (rest : List Char),
      sc.bracers = 1 →
      ((c = '}' ∨ c = ')') ∨ (c = ',' ∧ q % 2 = 0) ∨ c = '%') →
      ((isValidInt (trimSpace buf) = true ∨ isProperQuoted (trimSpace buf) = true) →
        (entryFieldTextH sc buf q p (c :: rest)).emitted =
          some ⟨.itemFieldText, trimSpace buf⟩) ∧
      (¬(isValidInt (trimSpace buf) = true ∨ isProperQuoted (trimSpace buf) = true) →
        (entryFieldTextH sc buf q p (c :: rest)).emitted = none ∧
        (entryFieldTextH sc buf q p (c :: rest)).sc.state = .err) := by
  intro sc buf q p c rest hb hc
  have hcase : ∀ P : Prop, ((isValidInt (trimSpace buf) = true ∨
      isProperQuoted (trimSpace buf) = true) → P) →
      (¬(isValidInt (trimSpace buf) = true ∨ isProperQuoted (trimSpace buf) = true) → P) → P := by
    intro P h1 h2
    by_cases hv : isValidInt (trimSpace buf) = true ∨ isProperQuoted (trimSpace buf) = true
    · exact h1 hv
    · exact h2 hv
  constructor
  · intro hv
    have hB : (!isValidInt (trimSpace buf) && !isProperQuoted (trimSpace buf)) = false := by
      rcases hv with hv | hv <;> simp [hv]
    rcases hc with (rfl | rfl) | ⟨rfl, hq⟩ | rfl
    · simp +decide [entryFieldTextH, hb, hB]
    · simp +decide [entryFieldTextH, hb, hB]
    · simp +decide [entryFieldTextH, hb, hq, hB]
    · simp +decide [entryFieldTextH, hb, hB]
  · intro hv
    push_neg at hv
    have hB : (!isValidInt (trimSpace buf) && !isProperQuoted (trimSpace buf)) = true := by
      simp [hv.1, hv.2]
    rcases hc with (rfl | rfl) | ⟨rfl, hq⟩ | rfl
    · simp +decide [entryFieldTextH, hb, hB]
    · simp +decide [entryFieldTextH, hb, hB]
    · simp +decide [entryFieldTextH, hb, hq, hB]
    · simp +decide [entryFieldTextH, hb, hB]

/-- Witness for C2 (amended): the digit run `1963` is emitted at a closing
brace, and the unbalanced buffer `{x` is rejected at a comma. -/
theorem C2_amended_fieldText_witness :
    (entryFieldTextH ⟨.entryFieldText, 1, .entry, '{'⟩ ("1963".toList) 0 ' '
      ('}' :: [])).emitted = some ⟨.itemFieldText, "1963".toList⟩ ∧
    (entryFieldTextH ⟨.entryFieldText, 1, .entry, '{'⟩ [] 0 ' '
      (',' :: [])).emitted = none ∧
    (entryFieldTextH ⟨.entryFieldText, 1, .entry, '{'⟩ [] 0 ' '
      (',' :: [])).sc.state = .err := by
  refine ⟨?_, ?_, ?_⟩
  · exact (C2_amended_fieldText ⟨.entryFieldText, 1, .entry, '{'⟩ ("1963".toList) 0 ' ' '}'
      [] rfl (Or.inl (Or.inl rfl))).1 (by decide)
  · exact ((C2_amended_fieldText ⟨.entryFieldText, 1, .entry, '{'⟩ [] 0 ' ' ','
      [] rfl (Or.inr (Or.inl ⟨rfl, by decide⟩))).2 (by decide)).1
  · exact ((C2_amended_fieldText ⟨.entryFieldText, 1, .entry, '{'⟩ [] 0 ' ' ','
      [] rfl (Or.inr (Or.inl ⟨rfl, by decide⟩))).2 (by decide)).2

/-! ## Claim C3: mismatched delimiter flavors -/

/-- C3: a body opened with one delimiter flavor and closed with the other
is rejected: the flavors do not match under `delimsMatch`; the
right-body-delimiter state, on reaching the first closing character, moves
to the Error sink without emitting when the flavor mismatches the recorded
opener; an Error token makes every pulling parser state move to its Error
sink without emitting a node; and on the concrete input
`@book{k, a = \x7bx\x7d)` the scanner emits an Error token and the pipeline
emits no declaration. -/
theorem C3_mismatched_delims :
    (delimsMatch '{' ')' = false ∧ delimsMatch '(' '}' = false) ∧
    (∀ (sc : Scanner) (pre : List Char) (c : Char) (rest : List Char),
      (∀ x ∈ pre, ¬(x = '}' ∨ x = ')')) →
      (c = '}' ∨ c = ')') → delimsMatch sc.delim c = false →
      rightBodyDelimH sc (pre ++ c :: rest) = ⟨none, { sc with state := .err }, rest⟩) ∧
    (∀ (ps : ParserS) (i : Item) (rest : List Item),
      i.t = .itemErr →
      (ps.state = .comms ∨ ps.state = .decl ∨ ps.state = .entry ∨
        ps.state = .preamble ∨ ps.state = .abbrev) →
      (parseStep ps (i :: rest)).emitted = none ∧
      (parseStep ps (i :: rest)).state = .err) ∧
    (Item.mk .itemErr [] ∈ scanTokens 100 newScanner ("@book\x7bk, a = \x7bx\x7d)".toList) ∧
      pipeline 100 ("@book\x7bk, a = \x7bx\x7d)".toList) = []) := by
  refine ⟨by decide, ?_, ?_, by decide⟩
  · intro sc pre c rest hpre hc hm
    induction pre with
    | nil =>
      simp only [List.nil_append, rightBodyDelimH]
      rw [if_pos hc, if_pos (by simp [hm])]
    | cons x pre ih =>
      have hx : ¬(x = '}' ∨ x = ')') := hpre x (by simp)
      simp only [List.cons_append, rightBodyDelimH]
      rw [if_neg hx]
      exact ih (fun y hy => hpre y (by simp [hy]))
  · intro ps i rest hi hs
    rcases hs with hs | hs | hs | hs | hs
    · constructor <;> simp [parseStep, hs, commsH, hi]
    · constructor <;> simp [parseStep, hs, declH, hi]
    · rcases hcur : ps.cur with _ | n
      · constructor <;> simp [parseStep, hs, entryH, hcur]
      · cases n <;> constructor <;> simp [parseStep, hs, entryH, hcur, hi]
    · rcases hcur : ps.cur with _ | n
      · constructor <;> simp [parseStep, hs, preambleH, hcur]
      · cases n <;> constructor <;> simp [parseStep, hs, preambleH, hcur, hi]
    · rcases hcur : ps.cur with _ | n
      · constructor <;> simp [parseStep, hs, abbrevH, hcur]
      · cases n <;> constructor <;> simp [parseStep, hs, abbrevH, hcur, hi]

/-- Witness for C3 at a body opened with `{` and closed with `)`, and a
parser in its comment-collecting state hitting an Error token. -/
theorem C3_mismatched_delims_witness :
    rightBodyDelimH ⟨.entryRightBodyDelim, 1, .entry, '{'⟩ (' ' :: ')' :: []) =
      ⟨none, ⟨.err, 1, .entry, '{'⟩, []⟩ ∧
    (parseStep ⟨.comms, [], none⟩ [⟨.itemErr, []⟩]).emitted = none ∧
    (parseStep ⟨.comms, [], none⟩ [⟨.itemErr, []⟩]).state = .err := by
  refine ⟨?_, ?_, ?_⟩
  · exact C3_mismatched_delims.2.1 ⟨.entryRightBodyDelim, 1, .entry, '{'⟩ [' '] ')' []
      (by decide) (Or.inr rfl) (by decide)
  · exact (C3_mismatched_delims.2.2.1 ⟨.comms, [], none⟩ ⟨.itemErr, []⟩ [] rfl
      (Or.inl rfl)).1
  · exact (C3_mismatched_delims.2.2.1 ⟨.comms, [], none⟩ ⟨.itemErr, []⟩ [] rfl
      (Or.inl rfl)).2

/-! ## Claim C4: end of input inside an open body -/

/-- C4 counterexample: on `@book(b1, title = {T}` (end of input before the
closing delimiter) the scanner's token stream ends with an EOF token and
contains no Error token, and the pipeline emits no declaration: the
machines end in the terminal EOF sink, not in an Error state as claimed. -/
theorem C4_counterexample :
    (scanTokens 100 newScanner ("@book(b1, title = {T}".toList)).getLast? =
      some ⟨.itemEOF, []⟩ ∧
    Item.mk .itemErr [] ∉ scanTokens 100 newScanner ("@book(b1, title = {T}".toList) ∧
    pipeline 100 ("@book(b1, title = {T}".toList) = [] := by decide

/-- C4 (amended): when the input ends inside an open declaration body, the
scanner and the parser end in their terminal end-of-input (EOF) sink
states — not the Error state — and no declaration is emitted: any
non-error scanner state yields the EOF token once the input is exhausted;
an EOF token makes every pulling parser state (with the current
declaration slot matching its state) move to the EOF sink without
emitting; and a parser in the EOF sink emits nothing ever after. -/
theorem C4_amended_eof_in_body :
    (∀ sc : Scanner, sc.state ≠ .err →
      scanNext 3 sc [] = some (⟨.itemEOF, []⟩, { sc with state := .eof }, [])) ∧
    (∀ (ps : ParserS) (i : Item) (rest : List Item),
      i.t = .itemEOF →
      (ps.state = .comms ∨ ps.state = .decl ∨
        (ps.state = .entry ∧ ∃ d, ps.cur = some (.entry d)) ∨
        (ps.state = .preamble ∧ ∃ d, ps.cur = some (.preamble d)) ∨
        (ps.state = .abbrev ∧ ∃ d, ps.cur = some (.abbrev d))) →
      (parseStep ps (i :: rest)).emitted = none ∧
      (parseStep ps (i :: rest)).state = .eof) ∧
    (∀ (fuel : Nat) (ps : ParserS) (toks : List Item), ps.state = .eof →
      parseRun fuel ps toks = []) := by
  refine ⟨?_, ?_, ?_⟩
  · intro sc hne
    rcases sc with ⟨st, br, et, dl⟩
    cases st
    case err => exact absurd rfl hne
    all_goals rfl
  · intro ps i rest hi hs
    rcases hs with hs | hs | ⟨hs, d, hcur⟩ | ⟨hs, d, hcur⟩ | ⟨hs, d, hcur⟩
    · constructor <;> simp [parseStep, hs, commsH, hi]
    · constructor <;> simp [parseStep, hs, declH, hi]
    · constructor <;> simp [parseStep, hs, entryH, hcur, hi]
    · constructor <;> simp [parseStep, hs, preambleH, hcur, hi]
    · constructor <;> simp [parseStep, hs, abbrevH, hcur, hi]
  · intro fuel ps toks hs
    cases fuel with
    | zero => rfl
    | succ f => simp [parseRun, hs]

/-- Witness for C4 (amended): the scanner stuck mid-body on empty input,
and a parser in the entry state receiving the EOF token. -/
theorem C4_amended_eof_in_body_witness :
    scanNext 3 ⟨.entryFieldText, 2, .entry, '('⟩ [] =
      some (⟨.itemEOF, []⟩, ⟨.eof, 2, .entry, '('⟩, []) ∧
    (parseStep ⟨.entry, [], some (.entry ⟨"book".toList, [], [], []⟩)⟩
      [⟨.itemEOF, []⟩]).emitted = none ∧
    (parseStep ⟨.entry, [], some (.entry ⟨"book".toList, [], [], []⟩)⟩
      [⟨.itemEOF, []⟩]).state = .eof ∧
    parseRun 100 ⟨.eof, [], none⟩ [⟨.itemEntryDelim, "@".toList⟩] = [] := by
  refine ⟨?_, ?_, ?_, ?_⟩
  · exact C4_amended_eof_in_body.1 ⟨.entryFieldText, 2, .entry, '('⟩ (by decide)
  · exact (C4_amended_eof_in_body.2.1 _ ⟨.itemEOF, []⟩ [] rfl
      (Or.inr (Or.inr (Or.inl ⟨rfl, ⟨"book".toList, [], [], []⟩, rfl⟩)))).1
  · exact (C4_amended_eof_in_body.2.1 _ ⟨.itemEOF, []⟩ [] rfl
      (Or.inr (Or.inr (Or.inl ⟨rfl, ⟨"book".toList, [], [], []⟩, rfl⟩)))).2
  · exact C4_amended_eof_in_body.2.2 100 ⟨.eof, [], none⟩ _ rfl

/-! ## Claim C7: escape-aware quote parity in field text -/

/-- C7: in the field-text state a quote whose immediately preceding
character is a backslash does not toggle the quote-parity counter; doubled
backslashes are not special-cased (a quote after two backslashes is still
treated as escaped); an unescaped quote toggles the counter; and a comma
at brace depth 1 terminates the value exactly when the parity counter is
even (odd parity keeps the comma as literal text). -/
theorem C7_quote_parity :
    (∀ (sc : Scanner) (buf : List Char) (q : Nat) (rest : List Char),
      entryFieldTextH sc buf q '\\' ('"' :: rest) =
        entryFieldTextH sc (buf ++ ['"']) q '"' rest) ∧
    (∀ (sc : Scanner) (buf : List Char) (q : Nat) (p : Char) (rest : List Char),
      entryFieldTextH sc buf q p ('\\' :: '\\' :: '"' :: rest) =
        entryFieldTextH sc (buf ++ ['\\', '\\', '"']) q '"' rest) ∧
    (∀ (sc : Scanner) (buf : List Char) (q : Nat) (p : Char) (rest : List Char),
      p ≠ '\\' →
      entryFieldTextH sc buf q p ('"' :: rest) =
        entryFieldTextH sc (buf ++ ['"']) (q + 1) '"' rest) ∧
    (∀ (sc : Scanner) (buf : List Char) (q : Nat) (p : Char) (rest : List Char),
      sc.bracers = 1 → q % 2 = 0 →
      entryFieldTextH sc buf q p (',' :: rest) =
        (if !isValidInt (trimSpace buf) && !isProperQuoted (trimSpace buf) then
          ⟨none, { sc with state := .err }, rest⟩
        else ⟨some ⟨.itemFieldText, trimSpace buf⟩,
          { sc with state := .entryComma }, ',' :: rest⟩)) ∧
    (∀ (sc : Scanner) (buf : List Char) (q : Nat) (p : Char) (rest : List Char),
      sc.bracers = 1 → q % 2 = 1 →
      entryFieldTextH sc buf q p (',' :: rest) =
        entryFieldTextH sc (buf ++ [',']) q ',' rest) := by
  refine ⟨?_, ?_, ?_, ?_, ?_⟩
  · intro sc buf q rest
    simp +decide [entryFieldTextH]
  · intro sc buf q p rest
    simp +decide [entryFieldTextH]
  · intro sc buf q p rest hp
    simp +decide [entryFieldTextH, hp]
  · intro sc buf q p rest hb hq
    simp +decide [entryFieldTextH, hb, hq]
  · intro sc buf q p rest hb hq
    simp +decide [entryFieldTextH, hb, hq]

/-- Witness for C7: an escaped quote after one and after two backslashes
leaves the parity at zero, an unescaped quote toggles it, and a comma at
depth 1 terminates on even parity and is buffered on odd parity. -/
theorem C7_quote_parity_witness :
    entryFieldTextH ⟨.entryFieldText, 1, .entry, '{'⟩ ['\\'] 0 '\\' ('"' :: []) =
      entryFieldTextH ⟨.entryFieldText, 1, .entry, '{'⟩ ['\\', '"'] 0 '"' [] ∧
    entryFieldTextH ⟨.entryFieldText, 1, .entry, '{'⟩ [] 0 ' '
        ('\\' :: '\\' :: '"' :: []) =
      entryFieldTextH ⟨.entryFieldText, 1, .entry, '{'⟩ ['\\', '\\', '"'] 0 '"' [] ∧
    entryFieldTextH ⟨.entryFieldText, 1, .entry, '{'⟩ [] 0 ' ' ('"' :: []) =
      entryFieldTextH ⟨.entryFieldText, 1, .entry, '{'⟩ ['"'] 1 '"' [] ∧
    entryFieldTextH ⟨.entryFieldText, 1, .entry, '{'⟩ ("7".toList) 0 '7' (',' :: []) =
      ⟨some ⟨.itemFieldText, "7".toList⟩,
        ⟨.entryComma, 1, .entry, '{'⟩, ',' :: []⟩ ∧
    entryFieldTextH ⟨.entryFieldText, 1, .entry, '{'⟩ ['"'] 1 '"' (',' :: []) =
      entryFieldTextH ⟨.entryFieldText, 1, .entry, '{'⟩ ['"', ','] 1 ',' [] := by
  refine ⟨?_, ?_, ?_, ?_, ?_⟩
  · exact C7_quote_parity.1 ⟨.entryFieldText, 1, .entry, '{'⟩ ['\\'] 0 []
  · exact C7_quote_parity.2.1 ⟨.entryFieldText, 1, .entry, '{'⟩ [] 0 ' ' []
  · exact C7_quote_parity.2.2.1 ⟨.entryFieldText, 1, .entry, '{'⟩ [] 0 ' ' []
      (by decide)
  · exact (C7_quote_parity.2.2.2.1 ⟨.entryFieldText, 1, .entry, '{'⟩ ("7".toList) 0 '7' []
      rfl (by decide)).trans (by decide)
  · exact C7_quote_parity.2.2.2.2 ⟨.entryFieldText, 1, .entry, '{'⟩ ['"'] 1 '"' []
      rfl (by decide)

/-! ## Claim C8: one token per call; EOF/Error are sinks -/

/-- C8: each call of the scanner's `Next` yields exactly one token, and
once the scanner is in the `eof` (resp. `err`) state, every call yields
the EOF (resp. Error) token again and leaves the scanner unchanged, so `n`
successive calls yield `n` copies of the terminal token, for every `n`. -/
theorem C8_terminal_sinks :
    (∀ (sc : Scanner) (inp : List Char) (fuel : Nat), sc.state = .eof →
      scanNext (fuel + 1) sc inp = some (⟨.itemEOF, []⟩, sc, inp)) ∧
    (∀ (sc : Scanner) (inp : List Char) (fuel : Nat), sc.state = .err →
      scanNext (fuel + 1) sc inp = some (⟨.itemErr, []⟩, sc, inp)) ∧
    (∀ (n fuel : Nat) (sc : Scanner) (inp : List Char), sc.state = .eof →
      scanNextN n (fuel + 1) sc inp = List.replicate n ⟨.itemEOF, []⟩) ∧
    (∀ (n fuel : Nat) (sc : Scanner) (inp : List Char), sc.state = .err →
      scanNextN n (fuel + 1) sc inp = List.replicate n ⟨.itemErr, []⟩) := by
  have h1 : ∀ (sc : Scanner) (inp : List Char) (fuel : Nat), sc.state = .eof →
      scanNext (fuel + 1) sc inp = some (⟨.itemEOF, []⟩, sc, inp) := by
    intro sc inp fuel hs
    rcases sc with ⟨st, br, et, dl⟩
    cases hs
    rfl
  have h2 : ∀ (sc : Scanner) (inp : List Char) (fuel : Nat), sc.state = .err →
      scanNext (fuel + 1) sc inp = some (⟨.itemErr, []⟩, sc, inp) := by
    intro sc inp fuel hs
    rcases sc with ⟨st, br, et, dl⟩
    cases hs
    rfl
  refine ⟨h1, h2, ?_, ?_⟩
  · intro n
    induction n with
    | zero => intro fuel sc inp hs; rfl
    | succ m ih =>
      intro fuel sc inp hs
      rw [scanNextN, h1 sc inp fuel hs]
      simp [ih fuel sc inp hs, List.replicate_succ]
  · intro n
    induction n with
    | zero => intro fuel sc inp hs; rfl
    | succ m ih =>
      intro fuel sc inp hs
      rw [scanNextN, h2 sc inp fuel hs]
      simp [ih fuel sc inp hs, List.replicate_succ]

/-- Witness for C8: five pulls from the EOF sink yield five EOF tokens and
five pulls from the Error sink yield five Error tokens. -/
theorem C8_terminal_sinks_witness :
    scanNextN 5 10 ⟨.eof, 0, .entry, '{'⟩ ("leftover".toList) =
      List.replicate 5 ⟨.itemEOF, []⟩ ∧
    scanNextN 5 10 ⟨.err, 1, .abbrev, '('⟩ [] =
      List.replicate 5 ⟨.itemErr, []⟩ := by
  constructor
  · exact C8_terminal_sinks.2.2.1 5 9 ⟨.eof, 0, .entry, '{'⟩ ("leftover".toList) rfl
  · exact C8_terminal_sinks.2.2.2 5 9 ⟨.err, 1, .abbrev, '('⟩ [] rfl

/-! ## Claim C9: the pipeline is a pure function of the input -/

/-- C9: running the pipeline twice over the same input characters, each
run with a freshly constructed scanner and parser, yields the same
declaration sequence: the run is a pure function of the input and the step
budget, with no state carried across runs (`newScanner`/`newParser`
construct the entire machine state afresh). -/
theorem C9_deterministic :
    ∀ (input : List Char) (fuel : Nat) (r1 r2 : List Node),
      r1 = parseRun fuel newParser (scanTokens fuel newScanner input) →
      r2 = parseRun fuel newParser (scanTokens fuel newScanner input) →
      r1 = r2 := by
  intro input fuel r1 r2 h1 h2
  rw [h1, h2]

/-- Witness for C9 at a concrete input. -/
theorem C9_deterministic_witness :
    pipeline 100 ("@book{k, }".toList) = pipeline 100 ("@book{k, }".toList) :=
  C9_deterministic ("@book{k, }".toList) 100 _ _ rfl rfl

/-! ## Claim C10: the body-delimiter token is consumed unchecked -/

/-- C10: after dispatching on an entry, abbreviation or preamble keyword,
the parser consumes the next token as the body delimiter without checking
its kind: replacing any non-EOF, non-Error token in that position by any
other non-EOF, non-Error token leaves the handler's behavior unchanged, so
no such token can by itself cause a parse error there. -/
theorem C10_body_delim_unchecked :
    ∀ (d : EntryDecl) (pd : PreambleDecl) (ad : AbbrevDecl) (g : List (List Char))
      (i j : Item) (rest : List Item),
      i.t ≠ .itemErr → i.t ≠ .itemEOF → j.t ≠ .itemErr → j.t ≠ .itemEOF →
      entryH (some (.entry d)) g (i :: rest) =
        entryH (some (.entry d)) g (j :: rest) ∧
      preambleH (some (.preamble pd)) g (i :: rest) =
        preambleH (some (.preamble pd)) g (j :: rest) ∧
      abbrevH (some (.abbrev ad)) g (i :: rest) =
        abbrevH (some (.abbrev ad)) g (j :: rest) := by
  intro d pd ad g i j rest hi1 hi2 hj1 hj2
  refine ⟨?_, ?_, ?_⟩
  · simp [entryH, hi1, hi2, hj1, hj2]
  · simp [preambleH, hi1, hi2, hj1, hj2]
  · simp [abbrevH, hi1, hi2, hj1, hj2]

/-- Witness for C10: a Comma and a FieldText token are interchangeable in
the body-delimiter position of all three declaration handlers. -/
theorem C10_body_delim_unchecked_witness :
    entryH (some (.entry ⟨"book".toList, [], [], []⟩)) []
        [⟨.itemComma, ",".toList⟩] =
      entryH (some (.entry ⟨"book".toList, [], [], []⟩)) []
        [⟨.itemFieldText, "x".toList⟩] ∧
    preambleH (some (.preamble ⟨[], []⟩)) [] [⟨.itemComma, ",".toList⟩] =
      preambleH (some (.preamble ⟨[], []⟩)) [] [⟨.itemFieldText, "x".toList⟩] ∧
    abbrevH (some (.abbrev ⟨[], none⟩)) [] [⟨.itemComma, ",".toList⟩] =
      abbrevH (some (.abbrev ⟨[], none⟩)) [] [⟨.itemFieldText, "x".toList⟩] :=
  C10_body_delim_unchecked ⟨"book".toList, [], [], []⟩ ⟨[], []⟩ ⟨[], none⟩ []
    ⟨.itemComma, ",".toList⟩ ⟨.itemFieldText, "x".toList⟩ []
    (by decide) (by decide) (by decide) (by decide)

/-! ## Comment bookkeeping lemmas -/

/-- `commentVals` of the empty token list. -/
theorem commentVals_nil : commentVals [] = [] := rfl

/-- `commentVals` keeps a comment token's text. -/
theorem commentVals_cons_comment {i : Item} (h : i.t = .itemComment) (l : List Item) :
    commentVals (i :: l) = i.val :: commentVals l := by
  simp [commentVals, List.filter_cons, h]

/-- `commentVals` drops a non-comment token. -/
theorem commentVals_cons_other {i : Item} (h : i.t ≠ .itemComment) (l : List Item) :
    commentVals (i :: l) = commentVals l := by
  simp [commentVals, List.filter_cons, h]

/-- The parser's comment-collecting state folds a block of leading Comment
tokens into the pending group, in order. -/
theorem commsH_collects :
    ∀ (pre toks : List Item) (cur : Option Node) (g : List (List Char)),
      (∀ i ∈ pre, i.t = .itemComment) →
      commsH cur g (pre ++ toks) = commsH cur (g ++ pre.map Item.val) toks := by
  intro pre
  induction pre with
  | nil => intro toks cur g _; simp
  | cons i pre ih =>
    intro toks cur g hp
    have hi : i.t = .itemComment := hp i (by simp)
    simp only [List.cons_append, commsH]
    rw [if_neg (by simp [hi]), if_neg (by simp [hi]), if_pos hi]
    simp only [List.append_eq]
    rw [ih toks cur (g ++ [i.val]) (fun j hj => hp j (by simp [hj]))]
    simp

/-- The comment-collecting state hands the pending group over to the
declaration dispatch on an EntryDelim token. -/
theorem commsH_entryDelim :
    ∀ (cur : Option Node) (g : List (List Char)) (i : Item) (rest : List Item),
      i.t = .itemEntryDelim →
      commsH cur g (i :: rest) = ⟨none, g, cur, .decl, rest⟩ := by
  intro cur g i rest hi
  simp [commsH, hi]

/-- Full specification of the entry-state loop on emission: the emitted
declaration's comment group is the pending group followed by the comment
texts of the consumed tokens in encounter order, the pending accumulator
is reset to empty, and every field of the declaration that is not an
inherited seed field takes its value from a FieldText token of the
consumed prefix (never from a comment). -/
theorem entryLoop_comments_spec :
    ∀ (toks : List Item) (d : EntryDecl) (stmt : FieldStmt) (g : List (List Char))
      (st : PStep), entryLoop d stmt g toks = st →
      ∀ n, st.emitted = some n →
      ∃ (d' : EntryDecl) (pre : List Item),
        n = .entry d' ∧ toks = pre ++ st.rest ∧
        d'.comments = g ++ commentVals pre ∧ st.comments = [] ∧
        (∀ f ∈ d'.fields, f ∈ d.fields ∨ Item.mk .itemFieldText f.value ∈ pre) := by
  intro toks
  induction toks with
  | nil =>
    intro d stmt g st hst n hn
    simp only [entryLoop] at hst
    subst hst
    simp at hn
  | cons i rest ih =>
    intro d stmt g st hst n hn
    simp only [entryLoop] at hst
    by_cases c1 : i.t = .itemErr
    · rw [if_pos c1] at hst; subst hst; simp at hn
    rw [if_neg c1] at hst
    by_cases c2 : i.t = .itemEOF
    · rw [if_pos c2] at hst; subst hst; simp at hn
    rw [if_neg c2] at hst
    by_cases c3 : i.t = .itemComment
    · rw [if_pos c3] at hst
      obtain ⟨d', pre, h1, h2, h3, h4, h5⟩ := ih _ _ _ _ hst n hn
      refine ⟨d', i :: pre, h1, by simp [h2], ?_, h4, ?_⟩
      · rw [commentVals_cons_comment c3, h3]
        simp
      · intro f hf
        rcases h5 f hf with hl | hr
        · exact Or.inl hl
        · exact Or.inr (by simp [hr])
    rw [if_neg c3] at hst
    by_cases c4 : i.t = .itemFieldType
    · rw [if_pos c4] at hst
      obtain ⟨d', pre, h1, h2, h3, h4, h5⟩ := ih _ _ _ _ hst n hn
      refine ⟨d', i :: pre, h1, by simp [h2], ?_, h4, ?_⟩
      · rw [commentVals_cons_other c3, h3]
      · intro f hf
        rcases h5 f hf with hl | hr
        · exact Or.inl hl
        · exact Or.inr (by simp [hr])
    rw [if_neg c4] at hst
    by_cases c5 : i.t = .itemFieldText
    · rw [if_pos c5] at hst
      by_cases c5b : (!FieldStmt.isOk { stmt with value := i.val }) = true
      · rw [if_pos c5b] at hst; subst hst; simp at hn
      · rw [if_neg c5b] at hst
        obtain ⟨d', pre, h1, h2, h3, h4, h5⟩ := ih _ _ _ _ hst n hn
        refine ⟨d', i :: pre, h1, by simp [h2], ?_, h4, ?_⟩
        · rw [commentVals_cons_other c3, h3]
        · intro f hf
          rcases h5 f hf with hl | hr
          · rcases List.mem_append.mp hl with hla | hlb
            · exact Or.inl hla
            · have hf2 : f = { stmt with value := i.val } := by simpa using hlb
              refine Or.inr ?_
              have hfi : Item.mk .itemFieldText f.value = i := by
                rcases i with ⟨it, iv⟩
                simp only [Item.mk.injEq]
                simp at c5
                simp [hf2, c5]
              simp [hfi]
          · exact Or.inr (by simp [hr])
    rw [if_neg c5] at hst
    by_cases c6 : i.t = .itemRightDelim
    · rw [if_pos c6] at hst
      subst hst
      simp only [Option.some.injEq] at hn
      subst hn
      refine ⟨{ d with comments := g }, [i], rfl, rfl, ?_, rfl, ?_⟩
      · rw [commentVals_cons_other c3, commentVals_nil]
        simp
      · intro f hf
        exact Or.inl hf
    rw [if_neg c6] at hst
    by_cases c7 : i.t = .itemComma ∨ i.t = .itemEqSgn
    · rw [if_pos c7] at hst
      obtain ⟨d', pre, h1, h2, h3, h4, h5⟩ := ih _ _ _ _ hst n hn
      refine ⟨d', i :: pre, h1, by simp [h2], ?_, h4, ?_⟩
      · rw [commentVals_cons_other c3, h3]
      · intro f hf
        rcases h5 f hf with hl | hr
        · exact Or.inl hl
        · exact Or.inr (by simp [hr])
    · rw [if_neg c7] at hst; subst hst; simp at hn

/-- Full specification of the preamble-state loop on emission: the
emitted declaration's comment group is the pending group followed by the
comment texts of the consumed tokens in encounter order, the pending
accumulator is reset to empty, and the declaration's value is either its
seed value or the text of a FieldText token of the consumed prefix (never
of a Comment token). -/
theorem preambleLoop_comments_spec :
    ∀ (toks : List Item) (pd : PreambleDecl) (g : List (List Char))
      (st : PStep), preambleLoop pd g toks = st →
      ∀ n, st.emitted = some n →
      ∃ (pd' : PreambleDecl) (pre : List Item),
        n = .preamble pd' ∧ toks = pre ++ st.rest ∧
        pd'.comments = g ++ commentVals pre ∧ st.comments = [] ∧
        (pd'.value = pd.value ∨ Item.mk .itemFieldText pd'.value ∈ pre) := by
  intro toks
  induction toks with
  | nil =>
    intro pd g st hst n hn
    simp only [preambleLoop] at hst
    subst hst
    simp at hn
  | cons i rest ih =>
    intro pd g st hst n hn
    simp only [preambleLoop] at hst
    by_cases c1 : i.t = .itemErr
    · rw [if_pos c1] at hst; subst hst; simp at hn
    rw [if_neg c1] at hst
    by_cases c2 : i.t = .itemEOF
    · rw [if_pos c2] at hst; subst hst; simp at hn
    rw [if_neg c2] at hst
    by_cases c3 : i.t = .itemComment
    · rw [if_pos c3] at hst
      obtain ⟨pd', pre, h1, h2, h3, h4, h5⟩ := ih _ _ _ hst n hn
      refine ⟨pd', i :: pre, h1, by simp [h2], ?_, h4, ?_⟩
      · rw [commentVals_cons_comment c3, h3]
        simp
      · rcases h5 with h5 | h5
        · exact Or.inl h5
        · exact Or.inr (by simp [h5])
    rw [if_neg c3] at hst
    by_cases c4 : i.t = .itemFieldText
    · rw [if_pos c4] at hst
      obtain ⟨pd', pre, h1, h2, h3, h4, h5⟩ := ih _ _ _ hst n hn
      refine ⟨pd', i :: pre, h1, by simp [h2], ?_, h4, ?_⟩
      · rw [commentVals_cons_other c3, h3]
      · rcases h5 with h5 | h5
        · refine Or.inr ?_
          have hfi : Item.mk .itemFieldText pd'.value = i := by
            rcases i with ⟨it, iv⟩
            simp only [Item.mk.injEq]
            simp at c4
            simp [h5, c4]
          simp [hfi]
        · exact Or.inr (by simp [h5])
    rw [if_neg c4] at hst
    by_cases c5 : i.t = .itemRightDelim
    · rw [if_pos c5] at hst
      subst hst
      simp only [Option.some.injEq] at hn
      subst hn
      refine ⟨{ pd with comments := g }, [i], rfl, rfl, ?_, rfl, Or.inl rfl⟩
      rw [commentVals_cons_other c3, commentVals_nil]
      simp
    · rw [if_neg c5] at hst; subst hst; simp at hn

/-- Full specification of the abbreviation-state loop on emission: the
emitted declaration's comment group is the pending group followed by the
comment texts of the consumed tokens in encounter order, the pending
accumulator is reset to empty, and a set field's value is either the
seed statement's value (when it was already marked set) or the text of a
FieldText token of the consumed prefix (never of a Comment token). -/
theorem abbrevLoop_comments_spec :
    ∀ (toks : List Item) (stmt : FieldStmt) (fieldSet : Bool) (g : List (List Char))
      (st : PStep), abbrevLoop stmt fieldSet g toks = st →
      ∀ n, st.emitted = some n →
      ∃ (ad : AbbrevDecl) (pre : List Item),
        n = .abbrev ad ∧ toks = pre ++ st.rest ∧
        ad.comments = g ++ commentVals pre ∧ st.comments = [] ∧
        (∀ f, ad.field = some f →
          (fieldSet = true ∧ f.value = stmt.value) ∨
          Item.mk .itemFieldText f.value ∈ pre) := by
  intro toks
  induction toks with
  | nil =>
    intro stmt fieldSet g st hst n hn
    simp only [abbrevLoop] at hst
    subst hst
    simp at hn
  | cons i rest ih =>
    intro stmt fieldSet g st hst n hn
    simp only [abbrevLoop] at hst
    by_cases c1 : i.t = .itemErr
    · rw [if_pos c1] at hst; subst hst; simp at hn
    rw [if_neg c1] at hst
    by_cases c2 : i.t = .itemEOF
    · rw [if_pos c2] at hst; subst hst; simp at hn
    rw [if_neg c2] at hst
    by_cases c3 : i.t = .itemComment
    · rw [if_pos c3] at hst
      obtain ⟨ad, pre, h1, h2, h3, h4, h5⟩ := ih _ _ _ _ hst n hn
      refine ⟨ad, i :: pre, h1, by simp [h2], ?_, h4, ?_⟩
      · rw [commentVals_cons_comment c3, h3]
        simp
      · intro f hf
        rcases h5 f hf with h5 | h5
        · exact Or.inl h5
        · exact Or.inr (by simp [h5])
    rw [if_neg c3] at hst
    by_cases c4 : i.t = .itemFieldType
    · rw [if_pos c4] at hst
      obtain ⟨ad, pre, h1, h2, h3, h4, h5⟩ := ih _ _ _ _ hst n hn
      refine ⟨ad, i :: pre, h1, by simp [h2], ?_, h4, ?_⟩
      · rw [commentVals_cons_other c3, h3]
      · intro f hf
        rcases h5 f hf with h5 | h5
        · exact Or.inl h5
        · exact Or.inr (by simp [h5])
    rw [if_neg c4] at hst
    by_cases c5 : i.t = .itemFieldText
    · rw [if_pos c5] at hst
      by_cases c5b : (!FieldStmt.isOk { stmt with value := i.val }) = true
      · rw [if_pos c5b] at hst; subst hst; simp at hn
      · rw [if_neg c5b] at hst
        obtain ⟨ad, pre, h1, h2, h3, h4, h5⟩ := ih _ _ _ _ hst n hn
        refine ⟨ad, i :: pre, h1, by simp [h2], ?_, h4, ?_⟩
        · rw [commentVals_cons_other c3, h3]
        · intro f hf
          rcases h5 f hf with h5 | h5
          · refine Or.inr ?_
            have hfi : Item.mk .itemFieldText f.value = i := by
              rcases i with ⟨it, iv⟩
              simp only [Item.mk.injEq]
              simp at c5
              simp [h5.2, c5]
            simp [hfi]
          · exact Or.inr (by simp [h5])
    rw [if_neg c5] at hst
    by_cases c6 : i.t = .itemRightDelim
    · rw [if_pos c6] at hst
      subst hst
      simp only [Option.some.injEq] at hn
      subst hn
      refine ⟨⟨g, if fieldSet then some stmt else none⟩, [i], rfl, rfl, ?_, rfl, ?_⟩
      · rw [commentVals_cons_other c3, commentVals_nil]
        simp
      · intro f hf
        by_cases hfs : fieldSet = true
        · rw [if_pos hfs] at hf
          rw [Option.some_inj] at hf
          subst hf
          exact Or.inl ⟨hfs, rfl⟩
        · rw [if_neg hfs] at hf
          simp at hf
    rw [if_neg c6] at hst
    by_cases c7 : i.t = .itemEqSgn
    · rw [if_pos c7] at hst
      obtain ⟨ad, pre, h1, h2, h3, h4, h5⟩ := ih _ _ _ _ hst n hn
      refine ⟨ad, i :: pre, h1, by simp [h2], ?_, h4, ?_⟩
      · rw [commentVals_cons_other c3, h3]
      · intro f hf
        rcases h5 f hf with h5 | h5
        · exact Or.inl h5
        · exact Or.inr (by simp [h5])
    · rw [if_neg c7] at hst; subst hst; simp at hn

/-! ## Claim C6: comment attachment and the pending accumulator -/

/-- C6: comments attach to the next declaration the parser emits, in
encounter order, and never leak into field values, for all three
declaration kinds: (1) the comment-collecting state appends a block of
top-level Comment tokens to the pending group in order and (2) hands the
group over unchanged on an EntryDelim; (3)–(5) when the entry, preamble
or abbreviation state emits a declaration, its comment group is exactly
the pending group followed by the comment texts of the consumed body
tokens in encounter order, the pending accumulator is reset to empty at
the emission (so no comment can attach to two declarations), and every
new field or bare value is the text of a FieldText token of the consumed
prefix, never of a Comment token. -/
theorem C6_comment_attachment :
    (∀ (pre toks : List Item) (cur : Option Node) (g : List (List Char)),
      (∀ i ∈ pre, i.t = .itemComment) →
      commsH cur g (pre ++ toks) = commsH cur (g ++ pre.map Item.val) toks) ∧
    (∀ (cur : Option Node) (g : List (List Char)) (i : Item) (rest : List Item),
      i.t = .itemEntryDelim →
      commsH cur g (i :: rest) = ⟨none, g, cur, .decl, rest⟩) ∧
    (∀ (toks : List Item) (d : EntryDecl) (stmt : FieldStmt) (g : List (List Char))
      (st : PStep), entryLoop d stmt g toks = st →
      ∀ n, st.emitted = some n →
      ∃ (d' : EntryDecl) (pre : List Item),
        n = .entry d' ∧ toks = pre ++ st.rest ∧
        d'.comments = g ++ commentVals pre ∧ st.comments = [] ∧
        (∀ f ∈ d'.fields, f ∈ d.fields ∨ Item.mk .itemFieldText f.value ∈ pre)) ∧
    (∀ (toks : List Item) (pd : PreambleDecl) (g : List (List Char))
      (st : PStep), preambleLoop pd g toks = st →
      ∀ n, st.emitted = some n →
      ∃ (pd' : PreambleDecl) (pre : List Item),
        n = .preamble pd' ∧ toks = pre ++ st.rest ∧
        pd'.comments = g ++ commentVals pre ∧ st.comments = [] ∧
        (pd'.value = pd.value ∨ Item.mk .itemFieldText pd'.value ∈ pre)) ∧
    (∀ (toks : List Item) (stmt : FieldStmt) (fieldSet : Bool) (g : List (List Char))
      (st : PStep), abbrevLoop stmt fieldSet g toks = st →
      ∀ n, st.emitted = some n →
      ∃ (ad : AbbrevDecl) (pre : List Item),
        n = .abbrev ad ∧ toks = pre ++ st.rest ∧
        ad.comments = g ++ commentVals pre ∧ st.comments = [] ∧
        (∀ f, ad.field = some f →
          (fieldSet = true ∧ f.value = stmt.value) ∨
          Item.mk .itemFieldText f.value ∈ pre)) :=
  ⟨commsH_collects, commsH_entryDelim, entryLoop_comments_spec,
   preambleLoop_comments_spec, abbrevLoop_comments_spec⟩

/-- Witness for C6: a top-level comment folded into the group before an
entry delimiter, and one body of each declaration kind (entry, preamble,
abbreviation) with an inline comment, whose emitted declaration carries
the pending and inline comments in order with the accumulator reset. -/
theorem C6_comment_attachment_witness :
    commsH none [] [⟨.itemComment, "a".toList⟩, ⟨.itemEntryDelim, "@".toList⟩] =
      ⟨none, ["a".toList], none, .decl, []⟩ ∧
    (entryLoop ⟨"book".toList, "k".toList, [], []⟩ ⟨[], []⟩ ["c0".toList]
      [⟨.itemComment, "c1".toList⟩, ⟨.itemRightDelim, "\x7d".toList⟩]).comments = [] ∧
    (entryLoop ⟨"book".toList, "k".toList, [], []⟩ ⟨[], []⟩ ["c0".toList]
      [⟨.itemComment, "c1".toList⟩, ⟨.itemRightDelim, "\x7d".toList⟩]).emitted =
      some (.entry ⟨"book".toList, "k".toList, ["c0".toList, "c1".toList], []⟩) ∧
    (preambleLoop ⟨[], "0".toList⟩ ["c0".toList]
      [⟨.itemComment, "c1".toList⟩, ⟨.itemFieldText, "7".toList⟩,
       ⟨.itemRightDelim, "\x7d".toList⟩]).comments = [] ∧
    (preambleLoop ⟨[], "0".toList⟩ ["c0".toList]
      [⟨.itemComment, "c1".toList⟩, ⟨.itemFieldText, "7".toList⟩,
       ⟨.itemRightDelim, "\x7d".toList⟩]).emitted =
      some (.preamble ⟨["c0".toList, "c1".toList], "7".toList⟩) ∧
    (abbrevLoop ⟨[], []⟩ false ["a0".toList]
      [⟨.itemFieldType, "k".toList⟩, ⟨.itemEqSgn, "=".toList⟩,
       ⟨.itemFieldText, "7".toList⟩, ⟨.itemComment, "c2".toList⟩,
       ⟨.itemRightDelim, "\x7d".toList⟩]).comments = [] ∧
    (abbrevLoop ⟨[], []⟩ false ["a0".toList]
      [⟨.itemFieldType, "k".toList⟩, ⟨.itemEqSgn, "=".toList⟩,
       ⟨.itemFieldText, "7".toList⟩, ⟨.itemComment, "c2".toList⟩,
       ⟨.itemRightDelim, "\x7d".toList⟩]).emitted =
      some (.abbrev ⟨["a0".toList, "c2".toList],
        some ⟨"k".toList, "7".toList⟩⟩) := by
  refine ⟨?_, ?_, by decide, ?_, by decide, ?_, by decide⟩
  · have h1 := C6_comment_attachment.1 [⟨.itemComment, "a".toList⟩]
      [⟨.itemEntryDelim, "@".toList⟩] none [] (by decide)
    have h2 := C6_comment_attachment.2.1 none ["a".toList]
      ⟨.itemEntryDelim, "@".toList⟩ [] rfl
    exact h1.trans h2
  · obtain ⟨d', pre, hh1, hh2, hh3, hh4, hh5⟩ := C6_comment_attachment.2.2.1
      [⟨.itemComment, "c1".toList⟩, ⟨.itemRightDelim, "\x7d".toList⟩]
      ⟨"book".toList, "k".toList, [], []⟩ ⟨[], []⟩ ["c0".toList] _ rfl
      (.entry ⟨"book".toList, "k".toList, ["c0".toList, "c1".toList], []⟩) (by decide)
    exact hh4
  · obtain ⟨pd', pre, hh1, hh2, hh3, hh4, hh5⟩ := C6_comment_attachment.2.2.2.1
      [⟨.itemComment, "c1".toList⟩, ⟨.itemFieldText, "7".toList⟩,
       ⟨.itemRightDelim, "\x7d".toList⟩]
      ⟨[], "0".toList⟩ ["c0".toList] _ rfl
      (.preamble ⟨["c0".toList, "c1".toList], "7".toList⟩) (by decide)
    exact hh4
  · obtain ⟨ad, pre, hh1, hh2, hh3, hh4, hh5⟩ := C6_comment_attachment.2.2.2.2
      [⟨.itemFieldType, "k".toList⟩, ⟨.itemEqSgn, "=".toList⟩,
       ⟨.itemFieldText, "7".toList⟩, ⟨.itemComment, "c2".toList⟩,
       ⟨.itemRightDelim, "\x7d".toList⟩]
      ⟨[], []⟩ false ["a0".toList] _ rfl
      (.abbrev ⟨["a0".toList, "c2".toList], some ⟨"k".toList, "7".toList⟩⟩) (by decide)
    exact hh4

/-! ## Scanner emission invariants (toward claim C5) -/

/-- A token is good when, if it is a CiteKey or a generic entry-type
token, its text is a valid NAME. -/
def GoodTok (i : Item) : Prop :=
  (i.t = .itemCiteKey ∨ i.t = .itemEntry) → IsValidName i.val = true

/-- A token of any other kind is good vacuously. -/
theorem GoodTok_of_kind {i : Item} (h1 : i.t ≠ .itemCiteKey) (h2 : i.t ≠ .itemEntry) :
    GoodTok i := by
  intro hk
  rcases hk with hk | hk
  · exact absurd hk h1
  · exact absurd hk h2

/-- The top-level comment state only emits Comment tokens. -/
theorem topLvlCommentH_good : ∀ (inp : List Char) (sc : Scanner) (buf : List Char)
    (i : Item), (topLvlCommentH sc buf inp).emitted = some i → GoodTok i := by
  intro inp
  induction inp with
  | nil => intro sc buf i h; simp [topLvlCommentH] at h
  | cons c rest ih =>
    intro sc buf i h
    simp only [topLvlCommentH] at h
    split_ifs at h
    all_goals first
      | exact ih sc (buf ++ [c]) i h
      | (simp_all; done)
      | (obtain rfl : _ = i := by simpa using h
         first
           | exact GoodTok_of_kind (by simp) (by simp)
           | (intro hk; simp_all))

/-- The entry-delimiter state only emits EntryDelim tokens. -/
theorem entryDelimH_good : ∀ (inp : List Char) (sc : Scanner) (i : Item),
    (entryDelimH sc inp).emitted = some i → GoodTok i := by
  intro inp
  induction inp with
  | nil => intro sc i h; simp [entryDelimH] at h
  | cons c rest ih =>
    intro sc i h
    simp only [entryDelimH] at h
    split_ifs at h
    all_goals first
      | exact ih sc i h
      | (simp_all; done)
      | (obtain rfl : _ = i := by simpa using h
         first
           | exact GoodTok_of_kind (by simp) (by simp)
           | (intro hk; simp_all))

/-- The entry-type state validates the scanned name before emitting it. -/
theorem entryTypeH_good : ∀ (inp : List Char) (sc : Scanner) (buf : List Char)
    (i : Item), (entryTypeH sc buf inp).emitted = some i → GoodTok i := by
  intro inp
  induction inp with
  | nil => intro sc buf i h; simp [entryTypeH] at h
  | cons c rest ih =>
    intro sc buf i h
    simp only [entryTypeH] at h
    split_ifs at h
    all_goals first
      | exact ih sc (buf ++ [c]) i h
      | (simp at h; done)
      | (obtain rfl : _ = i := by simpa using h
         intro hk
         simp only [Item.val]
         simp_all
         done)
      | (obtain rfl : _ = i := by simpa using h
         exact GoodTok_of_kind (by simp) (by simp))

/-- The left-body-delimiter state only emits LeftDelim tokens. -/
theorem leftBodyDelimH_good : ∀ (inp : List Char) (sc : Scanner) (i : Item),
    (leftBodyDelimH sc inp).emitted = some i → GoodTok i := by
  intro inp
  induction inp with
  | nil => intro sc i h; simp [leftBodyDelimH] at h
  | cons c rest ih =>
    intro sc i h
    simp only [leftBodyDelimH] at h
    split_ifs at h
    all_goals first
      | exact ih sc i h
      | (simp_all; done)
      | (obtain rfl : _ = i := by simpa using h
         first
           | exact GoodTok_of_kind (by simp) (by simp)
           | (intro hk; simp_all))

/-- The right-body-delimiter state only emits RightDelim tokens. -/
theorem rightBodyDelimH_good : ∀ (inp : List Char) (sc : Scanner) (i : Item),
    (rightBodyDelimH sc inp).emitted = some i → GoodTok i := by
  intro inp
  induction inp with
  | nil => intro sc i h; simp [rightBodyDelimH] at h
  | cons c rest ih =>
    intro sc i h
    simp only [rightBodyDelimH] at h
    split_ifs at h
    all_goals first
      | exact ih sc i h
      | (simp_all; done)
      | (obtain rfl : _ = i := by simpa using h
         first
           | exact GoodTok_of_kind (by simp) (by simp)
           | (intro hk; simp_all))

/-- The cite-key state validates the scanned key before emitting it. -/
theorem citeKeyH_good : ∀ (inp : List Char) (sc : Scanner) (buf : List Char)
    (i : Item), (citeKeyH sc buf inp).emitted = some i → GoodTok i := by
  intro inp
  induction inp with
  | nil => intro sc buf i h; simp [citeKeyH] at h
  | cons c rest ih =>
    intro sc buf i h
    simp only [citeKeyH] at h
    split_ifs at h
    all_goals first
      | exact ih sc (buf ++ [c]) i h
      | (simp at h; done)
      | (obtain rfl : _ = i := by simpa using h
         intro hk
         simp only [Item.val]
         simp_all
         done)
      | (obtain rfl : _ = i := by simpa using h
         exact GoodTok_of_kind (by simp) (by simp))

/-- The comma state only emits Comma tokens. -/
theorem entryCommaH_good : ∀ (inp : List Char) (sc : Scanner) (i : Item),
    (entryCommaH sc inp).emitted = some i → GoodTok i := by
  intro inp
  induction inp with
  | nil => intro sc i h; simp [entryCommaH] at h
  | cons c rest ih =>
    intro sc i h
    simp only [entryCommaH] at h
    split_ifs at h
    all_goals first
      | exact ih sc i h
      | (simp_all; done)
      | (obtain rfl : _ = i := by simpa using h
         first
           | exact GoodTok_of_kind (by simp) (by simp)
           | (intro hk; simp_all))

/-- The re-dispatch loop of the inline-comment state passes the pending
emission through unchanged. -/
theorem entryCommentContH_emitted : ∀ (inp : List Char) (sc : Scanner)
    (emit : Option Item), (entryCommentContH sc emit inp).emitted = emit := by
  intro inp
  induction inp with
  | nil => intro sc emit; rfl
  | cons c rest ih =>
    intro sc emit
    simp only [entryCommentContH]
    split_ifs <;> first | rfl | exact ih sc emit

/-- The inline-comment state only emits Comment tokens. -/
theorem entryCommentH_good : ∀ (inp : List Char) (sc : Scanner) (buf : List Char)
    (i : Item), (entryCommentH sc buf inp).emitted = some i → GoodTok i := by
  intro inp
  induction inp with
  | nil => intro sc buf i h; simp [entryCommentH] at h
  | cons c rest ih =>
    intro sc buf i h
    simp only [entryCommentH] at h
    split_ifs at h
    all_goals first
      | exact ih sc (buf ++ [c]) i h
      | (rw [entryCommentContH_emitted] at h
         first
           | (simp_all; done)
           | (obtain rfl : _ = i := by simpa using h
              exact GoodTok_of_kind (by simp) (by simp)))

/-- The type-or-brace state never emits. -/
theorem entryTypeOrBraceH_emitted : ∀ (inp : List Char) (sc : Scanner),
    (entryTypeOrBraceH sc inp).emitted = none := by
  intro inp
  induction inp with
  | nil => intro sc; rfl
  | cons c rest ih =>
    intro sc
    simp only [entryTypeOrBraceH]
    split_ifs <;> first | rfl | exact ih sc

/-- The field-type state only emits FieldType tokens. -/
theorem entryFieldTypeH_good : ∀ (inp : List Char) (sc : Scanner) (buf : List Char)
    (i : Item), (entryFieldTypeH sc buf inp).emitted = some i → GoodTok i := by
  intro inp
  induction inp with
  | nil => intro sc buf i h; simp [entryFieldTypeH] at h
  | cons c rest ih =>
    intro sc buf i h
    simp only [entryFieldTypeH] at h
    split_ifs at h
    all_goals first
      | exact ih sc (buf ++ [c]) i h
      | (simp_all; done)
      | (obtain rfl : _ = i := by simpa using h
         first
           | exact GoodTok_of_kind (by simp) (by simp)
           | (intro hk; simp_all))

/-- The equals-sign state only emits EqSgn tokens. -/
theorem entryEqSgnH_good : ∀ (inp : List Char) (sc : Scanner) (i : Item),
    (entryEqSgnH sc inp).emitted = some i → GoodTok i := by
  intro inp
  induction inp with
  | nil => intro sc i h; simp [entryEqSgnH] at h
  | cons c rest ih =>
    intro sc i h
    simp only [entryEqSgnH] at h
    split_ifs at h
    all_goals first
      | exact ih sc i h
      | (simp_all; done)
      | (obtain rfl : _ = i := by simpa using h
         first
           | exact GoodTok_of_kind (by simp) (by simp)
           | (intro hk; simp_all))

/-- The field-text state only emits FieldText tokens. -/
theorem entryFieldTextH_good : ∀ (inp : List Char) (sc : Scanner) (buf : List Char)
    (q : Nat) (p : Char) (i : Item),
    (entryFieldTextH sc buf q p inp).emitted = some i → GoodTok i := by
  intro inp
  induction inp with
  | nil => intro sc buf q p i h; simp [entryFieldTextH] at h
  | cons c rest ih =>
    intro sc buf q p i h
    simp only [entryFieldTextH] at h
    split_ifs at h
    all_goals first
      | exact ih _ _ _ _ i h
      | (simp_all; done)
      | (obtain rfl : _ = i := by simpa using h
         first
           | exact GoodTok_of_kind (by simp) (by simp)
           | (intro hk; simp_all))

/-- Every token a scanner step emits is good. -/
theorem scanStep_good : ∀ (sc : Scanner) (inp : List Char) (i : Item),
    (scanStep sc inp).emitted = some i → GoodTok i := by
  intro sc inp i h
  rcases sc with ⟨st, br, et, dl⟩
  cases st
  case null => simp [scanStep] at h
  case topLvlComment => exact topLvlCommentH_good inp _ [] i h
  case entryComment => exact entryCommentH_good inp _ [] i h
  case entryDelim => exact entryDelimH_good inp _ i h
  case entryType => exact entryTypeH_good inp _ [] i h
  case entryLeftBodyDelim => exact leftBodyDelimH_good inp _ i h
  case entryRightBodyDelim => exact rightBodyDelimH_good inp _ i h
  case entryCiteKey => exact citeKeyH_good inp _ [] i h
  case entryComma => exact entryCommaH_good inp _ i h
  case entryFieldType => exact entryFieldTypeH_good inp _ [] i h
  case entryEqSgn => exact entryEqSgnH_good inp _ i h
  case entryFieldText => exact entryFieldTextH_good inp _ [] 0 (Char.ofNat 0) i h
  case entryTypeOrBrace =>
    simp only [scanStep] at h
    rw [entryTypeOrBraceH_emitted] at h
    simp at h
  case eof =>
    simp only [scanStep] at h
    obtain rfl : _ = i := by simpa using h
    exact GoodTok_of_kind (by simp) (by simp)
  case err =>
    simp only [scanStep] at h
    obtain rfl : _ = i := by simpa using h
    exact GoodTok_of_kind (by simp) (by simp)

/-- Every token `Next` returns is good. -/
theorem scanNext_good : ∀ (fuel : Nat) (sc : Scanner) (inp : List Char)
    (i : Item) (sc2 : Scanner) (inp2 : List Char),
    scanNext fuel sc inp = some (i, sc2, inp2) → GoodTok i := by
  intro fuel
  induction fuel with
  | zero => intro sc inp i sc2 inp2 h; simp [scanNext] at h
  | succ f ih =>
    intro sc inp i sc2 inp2 h
    rw [scanNext] at h
    rcases hstep : scanStep sc inp with ⟨e, sc3, inp3⟩
    rw [hstep] at h
    cases e with
    | some j =>
      simp at h
      obtain ⟨h1, -, -⟩ := h
      subst h1
      exact scanStep_good sc inp _ (by rw [hstep])
    | none => exact ih sc3 inp3 i sc2 inp2 h

/-- Every token in the scanner's token stream is good: in particular every
CiteKey token and every generic entry-type token carries a valid NAME. -/
theorem scanTokens_good : ∀ (fuel : Nat) (sc : Scanner) (inp : List Char)
    (i : Item), i ∈ scanTokens fuel sc inp → GoodTok i := by
  intro fuel
  induction fuel with
  | zero => intro sc inp i h; simp [scanTokens] at h
  | succ f ih =>
    intro sc inp i h
    rw [scanTokens] at h
    rcases hnx : scanNext (f + 1) sc inp with - | ⟨j, sc2, inp2⟩
    · rw [hnx] at h; simp at h
    · rw [hnx] at h
      simp only [] at h
      split_ifs at h
      · rw [List.mem_singleton] at h
        subst h
        exact scanNext_good (f + 1) sc inp _ sc2 inp2 hnx
      · rcases List.mem_cons.mp h with h | h
        · subst h
          exact scanNext_good (f + 1) sc inp _ sc2 inp2 hnx
        · exact ih sc2 inp2 i h

/-! ## Parser step invariants (toward claim C5) -/

/-- The comment-collecting state emits nothing, keeps the current
declaration slot, and only consumes tokens. -/
theorem commsH_shape : ∀ (toks : List Item) (cur : Option Node) (g : List (List Char)),
    (commsH cur g toks).emitted = none ∧ (commsH cur g toks).cur = cur ∧
    (∀ x ∈ (commsH cur g toks).rest, x ∈ toks) := by
  intro toks
  induction toks with
  | nil => intro cur g; exact ⟨rfl, rfl, by simp [commsH]⟩
  | cons i rest ih =>
    intro cur g
    simp only [commsH]
    split_ifs
    all_goals first
      | exact ⟨(ih _ _).1, (ih _ _).2.1,
          fun x hx => List.mem_cons_of_mem _ ((ih _ _).2.2 x hx)⟩
      | exact ⟨rfl, rfl, fun x hx => List.mem_cons_of_mem _ hx⟩

/-- The entry loop only consumes tokens and leaves the current declaration
slot holding an entry with the seeded name and cite key. -/
theorem entryLoop_shape : ∀ (toks : List Item) (d : EntryDecl) (stmt : FieldStmt)
    (g : List (List Char)),
    (∀ x ∈ (entryLoop d stmt g toks).rest, x ∈ toks) ∧
    (∃ d2, (entryLoop d stmt g toks).cur = some (.entry d2) ∧
      d2.name = d.name ∧ d2.citeKey = d.citeKey) := by
  intro toks
  induction toks with
  | nil => intro d stmt g; exact ⟨by simp [entryLoop], ⟨d, rfl, rfl, rfl⟩⟩
  | cons i rest ih =>
    intro d stmt g
    simp only [entryLoop]
    split_ifs
    all_goals first
      | exact ⟨fun x hx => List.mem_cons_of_mem _ ((ih _ _ _).1 x hx), (ih _ _ _).2⟩
      | exact ⟨fun x hx => List.mem_cons_of_mem _ hx, ⟨d, rfl, rfl, rfl⟩⟩
      | exact ⟨fun x hx => List.mem_cons_of_mem _ hx,
          ⟨{ d with comments := g }, rfl, rfl, rfl⟩⟩

/-- The preamble loop only consumes tokens, only emits preamble
declarations, and leaves a preamble in the current slot. -/
theorem preambleLoop_shape : ∀ (toks : List Item) (pd : PreambleDecl)
    (g : List (List Char)),
    (∀ x ∈ (preambleLoop pd g toks).rest, x ∈ toks) ∧
    (∀ n, (preambleLoop pd g toks).emitted = some n → ∃ pd2, n = .preamble pd2) ∧
    (∃ pd2, (preambleLoop pd g toks).cur = some (.preamble pd2)) := by
  intro toks
  induction toks with
  | nil =>
    intro pd g
    exact ⟨by simp [preambleLoop], fun n h => by simp [preambleLoop] at h, ⟨pd, rfl⟩⟩
  | cons i rest ih =>
    intro pd g
    simp only [preambleLoop]
    split_ifs
    all_goals first
      | exact ⟨fun x hx => List.mem_cons_of_mem _ ((ih _ _).1 x hx),
          (ih _ _).2.1, (ih _ _).2.2⟩
      | exact ⟨fun x hx => List.mem_cons_of_mem _ hx,
          fun n h => by simp at h, ⟨pd, rfl⟩⟩
      | exact ⟨fun x hx => List.mem_cons_of_mem _ hx,
          fun n h => by
            rcases n with d | ad | pd2
            · simp at h
            · simp at h
            · exact ⟨pd2, rfl⟩,
          ⟨{ pd with comments := g }, rfl⟩⟩

/-- The abbreviation loop only consumes tokens, only emits abbreviation
declarations, and leaves an abbreviation in the current slot. -/
theorem abbrevLoop_shape : ∀ (toks : List Item) (stmt : FieldStmt) (fieldSet : Bool)
    (g : List (List Char)),
    (∀ x ∈ (abbrevLoop stmt fieldSet g toks).rest, x ∈ toks) ∧
    (∀ n, (abbrevLoop stmt fieldSet g toks).emitted = some n →
      ∃ ad, n = .abbrev ad) ∧
    (∃ ad, (abbrevLoop stmt fieldSet g toks).cur = some (.abbrev ad)) := by
  intro toks
  induction toks with
  | nil =>
    intro stmt fieldSet g
    exact ⟨by simp [abbrevLoop], fun n h => by simp [abbrevLoop] at h, ⟨_, rfl⟩⟩
  | cons i rest ih =>
    intro stmt fieldSet g
    simp only [abbrevLoop]
    by_cases c1 : i.t = .itemErr
    · rw [if_pos c1]
      exact ⟨fun x hx => List.mem_cons_of_mem _ hx, fun n h => by simp at h, ⟨_, rfl⟩⟩
    rw [if_neg c1]
    by_cases c2 : i.t = .itemEOF
    · rw [if_pos c2]
      exact ⟨fun x hx => List.mem_cons_of_mem _ hx, fun n h => by simp at h, ⟨_, rfl⟩⟩
    rw [if_neg c2]
    by_cases c3 : i.t = .itemComment
    · rw [if_pos c3]
      exact ⟨fun x hx => List.mem_cons_of_mem _ ((ih stmt fieldSet (g ++ [i.val])).1 x hx),
        (ih stmt fieldSet (g ++ [i.val])).2.1, (ih stmt fieldSet (g ++ [i.val])).2.2⟩
    rw [if_neg c3]
    by_cases c4 : i.t = .itemFieldType
    · rw [if_pos c4]
      exact ⟨fun x hx =>
          List.mem_cons_of_mem _ ((ih { stmt with key := i.val } fieldSet g).1 x hx),
        (ih { stmt with key := i.val } fieldSet g).2.1,
        (ih { stmt with key := i.val } fieldSet g).2.2⟩
    rw [if_neg c4]
    by_cases c5 : i.t = .itemFieldText
    · rw [if_pos c5]
      by_cases c5b : (!FieldStmt.isOk { stmt with value := i.val }) = true
      · rw [if_pos c5b]
        exact ⟨fun x hx => List.mem_cons_of_mem _ hx, fun n h => by simp at h, ⟨_, rfl⟩⟩
      · rw [if_neg c5b]
        exact ⟨fun x hx =>
            List.mem_cons_of_mem _ ((ih { stmt with value := i.val } true g).1 x hx),
          (ih { stmt with value := i.val } true g).2.1,
          (ih { stmt with value := i.val } true g).2.2⟩
    rw [if_neg c5]
    by_cases c6 : i.t = .itemRightDelim
    · rw [if_pos c6]
      refine ⟨fun x hx => List.mem_cons_of_mem _ hx, fun n h => ?_, ⟨_, rfl⟩⟩
      rcases n with d | ad | pd2
      · simp at h
      · exact ⟨ad, rfl⟩
      · simp at h
    rw [if_neg c6]
    by_cases c7 : i.t = .itemEqSgn
    · rw [if_pos c7]
      exact ⟨fun x hx => List.mem_cons_of_mem _ ((ih stmt fieldSet g).1 x hx),
        (ih stmt fieldSet g).2.1, (ih stmt fieldSet g).2.2⟩
    · rw [if_neg c7]
      exact ⟨fun x hx => List.mem_cons_of_mem _ hx, fun n h => by simp at h, ⟨_, rfl⟩⟩

/-- One parser step over good tokens only emits entries with a non-empty
cite key and a NAME-valid type name, preserves the entry-name invariant of
the current declaration slot, and only consumes tokens. -/
theorem parseStep_good :
    ∀ (ps : ParserS) (toks : List Item),
      (∀ i ∈ toks, GoodTok i) →
      (∀ d, ps.cur = some (.entry d) → IsValidName d.name = true) →
      (∀ n d, (parseStep ps toks).emitted = some n → n = .entry d →
        d.citeKey ≠ [] ∧ IsValidName d.name = true) ∧
      (∀ d, (parseStep ps toks).cur = some (.entry d) → IsValidName d.name = true) ∧
      (∀ x ∈ (parseStep ps toks).rest, x ∈ toks) := by
  intro ps toks hg hinv
  rcases ps with ⟨st, g, cur⟩
  cases st
  -- null
  · exact ⟨fun n d h => by simp [parseStep] at h, fun d h => hinv d h, fun x hx => hx⟩
  -- comms
  · simp only [parseStep]
    refine ⟨?_, ?_, (commsH_shape toks cur g).2.2⟩
    · intro n d h
      rw [(commsH_shape toks cur g).1] at h
      simp at h
    · intro d h
      rw [(commsH_shape toks cur g).2.1] at h
      exact hinv d h
  -- decl
  · simp only [parseStep]
    rcases toks with - | ⟨i, rest⟩
    · exact ⟨fun n d h => by simp [declH] at h,
        fun d h => hinv d (by simpa [declH] using h), by simp [declH]⟩
    simp only [declH]
    by_cases c1 : i.t = .itemErr
    · rw [if_pos c1]
      exact ⟨fun n d h => by simp at h, fun d h => hinv d h,
        fun x hx => List.mem_cons_of_mem _ hx⟩
    rw [if_neg c1]
    by_cases c2 : i.t = .itemEOF
    · rw [if_pos c2]
      exact ⟨fun n d h => by simp at h, fun d h => hinv d h,
        fun x hx => List.mem_cons_of_mem _ hx⟩
    rw [if_neg c2]
    by_cases c3 : i.t = .itemEntry
    · rw [if_pos c3]
      refine ⟨fun n d h => by simp at h, ?_, fun x hx => List.mem_cons_of_mem _ hx⟩
      intro d h
      have hi : IsValidName i.val = true := hg i (by simp) (Or.inr c3)
      have h2 : Node.entry ⟨toLowerStr i.val, [], [], []⟩ = Node.entry d := by
        simpa using h
      injection h2 with h2
      cases h2
      exact IsValidName_toLowerStr hi
    rw [if_neg c3]
    by_cases c4 : i.t = .itemAbbrev
    · rw [if_pos c4]
      refine ⟨fun n d h => by simp at h, ?_, fun x hx => List.mem_cons_of_mem _ hx⟩
      intro d h
      simp at h
    rw [if_neg c4]
    by_cases c5 : i.t = .itemPreamble
    · rw [if_pos c5]
      refine ⟨fun n d h => by simp at h, ?_, fun x hx => List.mem_cons_of_mem _ hx⟩
      intro d h
      simp at h
    · rw [if_neg c5]
      exact ⟨fun n d h => by simp at h, fun d h => hinv d h,
        fun x hx => List.mem_cons_of_mem _ hx⟩
  -- entry
  · rcases cur with - | n0
    · exact ⟨fun n d h => by simp [parseStep, entryH] at h,
        fun d h => by simp [parseStep, entryH] at h, fun x hx => hx⟩
    rcases n0 with d0 | ad0 | pd0
    · rcases toks with - | ⟨i, rest⟩
      · simp only [parseStep, entryH]
        exact ⟨fun n d h => by simp at h, fun d h => hinv d h, by simp⟩
      rcases rest with - | ⟨j, rest2⟩
      · simp only [parseStep, entryH]
        split_ifs <;>
          exact ⟨fun n d h => by simp at h, fun d h => hinv d h, by simp⟩
      simp only [parseStep, entryH]
      by_cases c1 : i.t = .itemErr
      · rw [if_pos c1]
        exact ⟨fun n d h => by simp at h, fun d h => hinv d h,
          fun x hx => List.mem_cons_of_mem _ hx⟩
      rw [if_neg c1]
      by_cases c2 : i.t = .itemEOF
      · rw [if_pos c2]
        exact ⟨fun n d h => by simp at h, fun d h => hinv d h,
          fun x hx => List.mem_cons_of_mem _ hx⟩
      rw [if_neg c2]
      by_cases c3 : j.t = .itemErr
      · rw [if_pos c3]
        exact ⟨fun n d h => by simp at h, fun d h => hinv d h,
          fun x hx => List.mem_cons_of_mem _ (List.mem_cons_of_mem _ hx)⟩
      rw [if_neg c3]
      by_cases c4 : j.t = .itemEOF
      · rw [if_pos c4]
        exact ⟨fun n d h => by simp at h, fun d h => hinv d h,
          fun x hx => List.mem_cons_of_mem _ (List.mem_cons_of_mem _ hx)⟩
      rw [if_neg c4]
      by_cases c5 : j.t ≠ .itemCiteKey
      · rw [if_pos c5]
        exact ⟨fun n d h => by simp at h, fun d h => hinv d h,
          fun x hx => List.mem_cons_of_mem _ (List.mem_cons_of_mem _ hx)⟩
      · rw [if_neg c5]
        push_neg at c5
        have hj : IsValidName j.val = true := hg j (by simp) (Or.inl c5)
        have hd0 : IsValidName d0.name = true := hinv d0 rfl
        refine ⟨?_, ?_, ?_⟩
        · intro n d h hnd
          obtain ⟨d2, hn2, hname, hcite⟩ :=
            entryLoop_emits_entry rest2 { d0 with citeKey := j.val } ⟨[], []⟩ g n h
          rw [hnd] at hn2
          injection hn2 with hn2
          subst hn2
          constructor
          · rw [hcite]
            exact IsValidName_ne_nil hj
          · rw [hname]
            exact hd0
        · intro d h
          obtain ⟨d2, hcur, hname2, -⟩ :=
            (entryLoop_shape rest2 { d0 with citeKey := j.val } ⟨[], []⟩ g).2
          rw [hcur] at h
          simp only [Option.some_inj] at h
          injection h with h
          subst h
          rw [hname2]
          exact hd0
        · intro x hx
          exact List.mem_cons_of_mem _ (List.mem_cons_of_mem _
            ((entryLoop_shape rest2 { d0 with citeKey := j.val } ⟨[], []⟩ g).1 x hx))
    · exact ⟨fun n d h => by simp [parseStep, entryH] at h,
        fun d h => by simp [parseStep, entryH] at h, fun x hx => hx⟩
    · exact ⟨fun n d h => by simp [parseStep, entryH] at h,
        fun d h => by simp [parseStep, entryH] at h, fun x hx => hx⟩
  -- preamble
  · rcases cur with - | n0
    · exact ⟨fun n d h => by simp [parseStep, preambleH] at h,
        fun d h => by simp [parseStep, preambleH] at h, fun x hx => hx⟩
    rcases n0 with d0 | ad0 | pd0
    · exact ⟨fun n d h => by simp [parseStep, preambleH] at h,
        fun d h => hinv d h, fun x hx => hx⟩
    · exact ⟨fun n d h => by simp [parseStep, preambleH] at h,
        fun d h => by simp [parseStep, preambleH] at h, fun x hx => hx⟩
    · rcases toks with - | ⟨i, rest⟩
      · simp only [parseStep, preambleH]
        exact ⟨fun n d h => by simp at h, fun d h => by simp at h, by simp⟩
      simp only [parseStep, preambleH]
      by_cases c1 : i.t = .itemErr
      · rw [if_pos c1]
        exact ⟨fun n d h => by simp at h, fun d h => by simp at h,
          fun x hx => List.mem_cons_of_mem _ hx⟩
      rw [if_neg c1]
      by_cases c2 : i.t = .itemEOF
      · rw [if_pos c2]
        exact ⟨fun n d h => by simp at h, fun d h => by simp at h,
          fun x hx => List.mem_cons_of_mem _ hx⟩
      · rw [if_neg c2]
        refine ⟨?_, ?_, ?_⟩
        · intro n d h hnd
          obtain ⟨pd2, hn2⟩ := (preambleLoop_shape rest pd0 g).2.1 n h
          rw [hnd] at hn2
          simp at hn2
        · intro d h
          obtain ⟨pd2, hcur⟩ := (preambleLoop_shape rest pd0 g).2.2
          rw [hcur] at h
          simp at h
        · intro x hx
          exact List.mem_cons_of_mem _ ((preambleLoop_shape rest pd0 g).1 x hx)
  -- abbrev
  · rcases cur with - | n0
    · exact ⟨fun n d h => by simp [parseStep, abbrevH] at h,
        fun d h => by simp [parseStep, abbrevH] at h, fun x hx => hx⟩
    rcases n0 with d0 | ad0 | pd0
    · exact ⟨fun n d h => by simp [parseStep, abbrevH] at h,
        fun d h => hinv d h, fun x hx => hx⟩
    · rcases toks with - | ⟨i, rest⟩
      · simp only [parseStep, abbrevH]
        exact ⟨fun n d h => by simp at h, fun d h => by simp at h, by simp⟩
      simp only [parseStep, abbrevH]
      by_cases c1 : i.t = .itemErr
      · rw [if_pos c1]
        exact ⟨fun n d h => by simp at h, fun d h => by simp at h,
          fun x hx => List.mem_cons_of_mem _ hx⟩
      rw [if_neg c1]
      by_cases c2 : i.t = .itemEOF
      · rw [if_pos c2]
        exact ⟨fun n d h => by simp at h, fun d h => by simp at h,
          fun x hx => List.mem_cons_of_mem _ hx⟩
      · rw [if_neg c2]
        refine ⟨?_, ?_, ?_⟩
        · intro n d h hnd
          obtain ⟨ad2, hn2⟩ := (abbrevLoop_shape rest ⟨[], []⟩ false g).2.1 n h
          rw [hnd] at hn2
          simp at hn2
        · intro d h
          obtain ⟨ad2, hcur⟩ := (abbrevLoop_shape rest ⟨[], []⟩ false g).2.2
          rw [hcur] at h
          simp at h
        · intro x hx
          exact List.mem_cons_of_mem _ ((abbrevLoop_shape rest ⟨[], []⟩ false g).1 x hx)
    · exact ⟨fun n d h => by simp [parseStep, abbrevH] at h,
        fun d h => hinv d h, fun x hx => hx⟩
  -- err
  · exact ⟨fun n d h => by simp [parseStep] at h, fun d h => hinv d h, fun x hx => hx⟩
  -- eof
  · exact ⟨fun n d h => by simp [parseStep] at h, fun d h => hinv d h, fun x hx => hx⟩

/-- Every entry declaration the parser run emits over good tokens has a
non-empty cite key and a NAME-valid type name. -/
theorem parseRun_good :
    ∀ (fuel : Nat) (ps : ParserS) (toks : List Item),
      (∀ i ∈ toks, GoodTok i) →
      (∀ d, ps.cur = some (.entry d) → IsValidName d.name = true) →
      ∀ n ∈ parseRun fuel ps toks, ∀ d, n = .entry d →
        d.citeKey ≠ [] ∧ IsValidName d.name = true := by
  intro fuel
  induction fuel with
  | zero => intro ps toks hg hinv n hn; simp [parseRun] at hn
  | succ f ih =>
    intro ps toks hg hinv n hn d hnd
    rw [parseRun] at hn
    split_ifs at hn with hterm
    · simp at hn
    · rw [List.mem_append] at hn
      rcases hn with hn | hn
      · rcases hx : (parseStep ps toks).emitted with - | m
        · rw [hx] at hn
          simp at hn
        · rw [hx] at hn
          simp only [Option.toList] at hn
          rw [List.mem_singleton] at hn
          subst hn
          exact (parseStep_good ps toks hg hinv).1 _ d hx hnd
      · exact ih ⟨(parseStep ps toks).state, (parseStep ps toks).comments,
          (parseStep ps toks).cur⟩ (parseStep ps toks).rest
          (fun i hi => hg i ((parseStep_good ps toks hg hinv).2.2 i hi))
          (fun d2 h2 => (parseStep_good ps toks hg hinv).2.1 d2 h2)
          n hn d hnd

/-! ## Claim C5: entry invariants of the pipeline -/

/-- C5 counterexample: the scanner does not reject generic entry-type
names containing characters other than letters: `@book5{k, }` scans
without error, emits the entry-type token `book5` (which contains the
digit `5`, so it is not letters-only, while it is a valid NAME), and the
pipeline emits the corresponding EntryDecl. -/
theorem C5_counterexample :
    Item.mk .itemEntry ("book5".toList) ∈
      scanTokens 100 newScanner ("@book5{k, }".toList) ∧
    Item.mk .itemErr [] ∉ scanTokens 100 newScanner ("@book5{k, }".toList) ∧
    pipeline 100 ("@book5{k, }".toList) =
      [Node.entry ⟨"book5".toList, "k".toList, [], []⟩] ∧
    isLetter ("book5".toList) = false ∧
    IsValidName ("book5".toList) = true := by decide

/-- C5 (amended): for every input accepted by the pipeline, every
EntryDecl emitted by the parser has a non-empty cite key and a type name
that is a valid BibTeX NAME (letters, digits or the special punctuation
set, lower-cased); the scanner validates entry-type names against the
NAME alphabet (`IsValidName`), not against a letters-only rule. -/
theorem C5_amended_entry_invariant :
    ∀ (fuel : Nat) (input : List Char) (n : Node) (d : EntryDecl),
      n ∈ pipeline fuel input → n = .entry d →
      d.citeKey ≠ [] ∧ IsValidName d.name = true := by
  intro fuel input n d hn hnd
  exact parseRun_good fuel newParser (scanTokens fuel newScanner input)
    (fun i hi => scanTokens_good fuel newScanner input i hi)
    (fun d2 h2 => by simp [newParser] at h2)
    n hn d hnd

/-- Witness for C5 (amended) on the concrete input `@book5{k, }`. -/
theorem C5_amended_entry_invariant_witness :
    ("k".toList : List Char) ≠ [] ∧ IsValidName ("book5".toList) = true :=
  C5_amended_entry_invariant 100 ("@book5{k, }".toList)
    (Node.entry ⟨"book5".toList, "k".toList, [], []⟩)
    ⟨"book5".toList, "k".toList, [], []⟩ (by decide) rfl
